import Mathlib

/-!
Verification of the tamr-client excerpt: the unified-dataset accessor
(`src/tamr_client/dataset/unified.py`), the mastering-project cluster
accessors (`src/tamr_unify_client/models/project/mastering.py`), and the
async operation follower described by the specification.

Python objects reachable from a parsed JSON body are embedded as a heap:
a list of cells addressed by position.  Primitive cells carry their value
(Python strings, numbers, booleans and None are immutable); `array` and
`dict` cells carry the addresses of their elements, so that aliasing and
mutation of nested structure can be expressed.  Allocation appends cells;
mutation is `List.set`.  `deepcopy` is modelled by a fuel-indexed copy
that allocates a fresh isomorphic structure, as `copy.deepcopy` does.
-/

/-- A Python heap cell holding one JSON-shaped object.  Containers hold
addresses of their elements, not the elements themselves. -/
inductive Cell where
  | null
  | boolean (b : Bool)
  | number (n : Int)
  | string (s : String)
  | array (elems : List Nat)
  | dict (fields : List (String × Nat))
deriving Repr, DecidableEq

/-- A heap is a list of cells; an address is an index into the list. -/
abbrev Heap := List Cell

/-- The addresses a cell refers to directly. -/
def Cell.refs : Cell → List Nat
  | .array es => es
  | .dict fs => fs.map Prod.snd
  | _ => []

/-- A heap is closed when every address stored in a cell is a valid
address of the heap.  Heaps built by a real interpreter are closed. -/
def heapClosed (h : Heap) : Prop :=
  ∀ c ∈ h, ∀ r ∈ c.refs, r < h.length

instance : DecidablePred heapClosed := fun h =>
  inferInstanceAs (Decidable (∀ c ∈ h, ∀ r ∈ c.refs, r < h.length))

/-- Pure JSON trees, used only to read a heap structure out as a value
(Python `==` compares containers by value, recursively). -/
inductive Json where
  | null
  | boolean (b : Bool)
  | number (n : Int)
  | string (s : String)
  | array (elems : List Json)
  | dict (fields : List (String × Json))

mutual
/-- Read the value rooted at address `a` out of heap `h` as a pure JSON
tree.  `fuel` bounds the traversal depth; on a closed acyclic heap a large
enough fuel reads the whole value. -/
def readV : Nat → Heap → Nat → Option Json
  | 0, _, _ => none
  | fuel+1, h, a =>
    match h[a]? with
    | none => none
    | some Cell.null => some Json.null
    | some (Cell.boolean b) => some (Json.boolean b)
    | some (Cell.number n) => some (Json.number n)
    | some (Cell.string s) => some (Json.string s)
    | some (Cell.array es) => (readVL fuel h es).map Json.array
    | some (Cell.dict fs) =>
        (readVL fuel h (fs.map Prod.snd)).map
          (fun vs => Json.dict ((fs.map Prod.fst).zip vs))
termination_by fuel _ _ => (fuel, 0)

/-- Read a list of addresses as values; fails if any element fails. -/
def readVL : Nat → Heap → List Nat → Option (List Json)
  | _, _, [] => some []
  | fuel, h, a :: as =>
    match readV fuel h a, readVL fuel h as with
    | some v, some vs => some (v :: vs)
    | _, _ => none
termination_by fuel _ l => (fuel, l.length + 1)
end

/-- First value bound to a key in a Python dict (keys are unique, so the
first match is the binding). -/
def dictLookup : List (String × Nat) → String → Option Nat
  | [], _ => none
  | (k, v) :: fs, key => if k = key then some v else dictLookup fs key

/-- Allocate cells one after another at the end of the heap, returning the
extended heap and the fresh addresses in order. -/
def allocCells : Heap → List Cell → Heap × List Nat
  | h, [] => (h, [])
  | h, c :: cs =>
    let (h', as) := allocCells (h ++ [c]) cs
    (h', h.length :: as)

mutual
/-- Model of Python `copy.deepcopy` on a JSON-shaped object: allocate an
isomorphic structure in fresh cells and return its root.  `fuel` bounds
the recursion depth of the embedding; `none` means the fuel ran out or an
address was dangling, situations with no counterpart in the source run. -/
def deepcopyA : Nat → Heap → Nat → Option (Heap × Nat)
  | 0, _, _ => none
  | fuel+1, h, a =>
    match h[a]? with
    | none => none
    | some Cell.null => some (h ++ [Cell.null], h.length)
    | some (Cell.boolean b) => some (h ++ [Cell.boolean b], h.length)
    | some (Cell.number n) => some (h ++ [Cell.number n], h.length)
    | some (Cell.string s) => some (h ++ [Cell.string s], h.length)
    | some (Cell.array es) =>
      match deepcopyL fuel h es with
      | none => none
      | some (h1, es') => some (h1 ++ [Cell.array es'], h1.length)
    | some (Cell.dict fs) =>
      match deepcopyL fuel h (fs.map Prod.snd) with
      | none => none
      | some (h1, vs) =>
          some (h1 ++ [Cell.dict ((fs.map Prod.fst).zip vs)], h1.length)
termination_by fuel _ _ => (fuel, 0)

/-- Deep-copy each address of a list in order, threading the heap. -/
def deepcopyL : Nat → Heap → List Nat → Option (Heap × List Nat)
  | _, h, [] => some (h, [])
  | fuel, h, a :: as =>
    match deepcopyA fuel h a with
    | none => none
    | some (h1, a') =>
      match deepcopyL fuel h1 as with
      | none => none
      | some (h2, as') => some (h2, a' :: as')
termination_by fuel _ l => (fuel, l.length + 1)
end

/-- Python errors raised by the deserializer in `unified.py`:
`KeyError` from `cp[k]` on a missing key, `TypeError` from subscripting a
non-dict or from `tuple(x)` on a non-iterable. -/
inductive PyErr where
  | keyError (k : String)
  | typeError
deriving Repr, DecidableEq

/-- Python `cp[k]` on the object at address `a`: the bound address if `a`
is a dict containing key `k`, `KeyError` if the key is missing,
`TypeError` if the object is not a dict. -/
def pyGetItem (h : Heap) (a : Nat) (k : String) : Except PyErr Nat :=
  match h[a]? with
  | some (Cell.dict fs) =>
    match dictLookup fs k with
    | some v => Except.ok v
    | none => Except.error (PyErr.keyError k)
  | _ => Except.error PyErr.typeError

/-- Python `cp.get(k)` on the object at address `a`: `None` when the key
is absent; `TypeError` stands in for the failure on a non-dict receiver. -/
def pyGet (h : Heap) (a : Nat) (k : String) : Except PyErr (Option Nat) :=
  match h[a]? with
  | some (Cell.dict fs) => Except.ok (dictLookup fs k)
  | _ => Except.error PyErr.typeError

/-- Python `tuple(x)` on the object at address `a`: an array yields its
element references, a dict yields its keys (fresh string objects here),
a string yields its one-character substrings (fresh string objects), and
any other object raises `TypeError`. -/
def pyTuple (h : Heap) (a : Nat) : Except PyErr (Heap × List Nat) :=
  match h[a]? with
  | some (Cell.array es) => Except.ok (h, es)
  | some (Cell.dict fs) =>
      Except.ok (allocCells h (fs.map (fun p => Cell.string p.1)))
  | some (Cell.string s) =>
      Except.ok (allocCells h (s.data.map (fun c => Cell.string (String.mk [c]))))
  | _ => Except.error PyErr.typeError

/-- Modelled from the spec: `tamr_client.url.URL` is not part of the
excerpt.  The spec describes it as an opaque locator made of an instance
context and a path; `inst` stands for the `instance` component. -/
structure URL where
  inst : String
  path : String
deriving Repr, DecidableEq

/-- Modelled from the spec: the string form of a URL (`str(url)` in the
source), an opaque serialization combining instance context and path. -/
def strURL (u : URL) : String :=
  u.inst ++ "/api/versioned/v1/" ++ u.path

/-- Modelled from the spec: a project handle carries its URL; only
`project.url.path` is consulted by `from_project`. -/
structure Project where
  url : URL
deriving Repr, DecidableEq

/-- `UnifiedDataset` from `unified.py`: a frozen dataclass.  `name`,
`key_attribute_names` and `description` hold references to the objects
obtained from the deep copy of the response body (Python attributes are
references); `url` is the typed URL passed in. -/
structure UnifiedDataset where
  url : URL
  name : Nat
  key_attribute_names : List Nat
  description : Option Nat
deriving Repr, DecidableEq

/-- `_from_json` from `unified.py`:
deep-copy the JSON data, then build the dataclass from `cp["name"]`,
`cp.get("description")` and `tuple(cp["keyAttributeNames"])`, evaluated
in that order.  `fuel` bounds the depth of the deep-copy embedding. -/
def _from_json (fuel : Nat) (url : URL) (h : Heap) (a : Nat) :
    Except PyErr (Heap × UnifiedDataset) :=
  match deepcopyA fuel h a with
  | none => Except.error PyErr.typeError
  | some (h1, cp) =>
    match pyGetItem h1 cp "name" with
    | Except.error e => Except.error e
    | Except.ok nameA =>
      match pyGet h1 cp "description" with
      | Except.error e => Except.error e
      | Except.ok descO =>
        match pyGetItem h1 cp "keyAttributeNames" with
        | Except.error e => Except.error e
        | Except.ok kA =>
          match pyTuple h1 kA with
          | Except.error e => Except.error e
          | Except.ok (h2, ks) =>
              Except.ok (h2, ⟨url, nameA, ks, descO⟩)

/-- The error kinds surfaced by the client: `notFound` is the `NotFound`
exception of `unified.py` (HTTP 404), `httpError` is the transport error
for any other non-success status, `pyErr` wraps the deserializer errors,
and `malformed` is the spec's `MalformedResponse` kind raised by the
spec-modelled operation parser. -/
inductive Err where
  | notFound (msg : String)
  | httpError (status : Nat)
  | pyErr (e : PyErr)
  | malformed (field : String)
deriving Repr, DecidableEq

/-- An HTTP response: status code plus the parsed JSON body, laid out as
fresh objects in a heap with a root address. -/
structure HttpResponse where
  status : Nat
  bodyHeap : Heap
  bodyRoot : Nat
deriving Repr, DecidableEq

/-- Modelled from the spec: `response.successful` is not part of the
excerpt.  Per the spec, any non-2xx status signals a generic transport
error kind, propagated unchanged; a 2xx response is returned as is. -/
def successful (r : HttpResponse) : Except Err HttpResponse :=
  if 200 ≤ r.status ∧ r.status < 300 then Except.ok r
  else Except.error (Err.httpError r.status)

/-- `_from_url` from `unified.py`: perform the GET (the response is the
argument), raise `NotFound` on status 404, otherwise check for success
and deserialize the body. -/
def _from_url (fuel : Nat) (url : URL) (r : HttpResponse) :
    Except Err (Heap × UnifiedDataset) :=
  if r.status = 404 then Except.error (Err.notFound (strURL url))
  else
    match successful r with
    | Except.error e => Except.error e
    | Except.ok r2 =>
      match _from_json fuel url r2.bodyHeap r2.bodyRoot with
      | Except.error e => Except.error (Err.pyErr e)
      | Except.ok hu => Except.ok hu

/-- `from_project` from `unified.py`: build the unified-dataset URL from
the project URL path plus `/unifiedDataset` and fetch it by URL. -/
def from_project (fuel : Nat) (inst : String) (project : Project)
    (r : HttpResponse) : Except Err (Heap × UnifiedDataset) :=
  _from_url fuel ⟨inst, project.url.path ++ "/unifiedDataset"⟩ r

/-- Modelled from the spec: the `Operation` entity of the operation
module, absent from the excerpt — an immutable snapshot of a server-side
job with its URL, state label and informational metadata. -/
structure Operation where
  url : URL
  state : String
  description : Option String
  type : Option String
deriving Repr, DecidableEq

/-- The fixed terminal subset of the open state enumeration. -/
def terminalStates : List String := ["SUCCEEDED", "FAILED", "CANCELED"]

/-- Modelled from the spec: the "is terminal" predicate, derived purely
from membership of `state` in the terminal set. -/
def Operation.isTerminal (op : Operation) : Bool :=
  terminalStates.contains op.state

/-- Read a required string field of a JSON body; the spec's
`MalformedResponse` kind when the field is absent or not a string, or
when the body is not an object. -/
def getStringField (h : Heap) (a : Nat) (k : String) : Except Err String :=
  match h[a]? with
  | some (Cell.dict fs) =>
    match dictLookup fs k with
    | some v =>
      match h[v]? with
      | some (Cell.string s) => Except.ok s
      | _ => Except.error (Err.malformed k)
    | none => Except.error (Err.malformed k)
  | _ => Except.error (Err.malformed k)

/-- Read an optional string metadata field of a JSON body; absent or
non-string values read as `none`. -/
def getOptStringField (h : Heap) (a : Nat) (k : String) : Option String :=
  match h[a]? with
  | some (Cell.dict fs) =>
    match dictLookup fs k with
    | some v =>
      match h[v]? with
      | some (Cell.string s) => some s
      | _ => none
    | none => none
  | _ => none

/-- Modelled from the spec: one poll of the follower — GET the
operation's URL (the response is the argument); 404 signals the not-found
kind, any other non-success status the transport error kind, and a
success body is parsed into a brand-new Operation snapshot whose required
`state` field must be a string. -/
def pollOperation (u : URL) (r : HttpResponse) : Except Err Operation :=
  if r.status = 404 then Except.error (Err.notFound (strURL u))
  else
    match successful r with
    | Except.error e => Except.error e
    | Except.ok r2 =>
      match getStringField r2.bodyHeap r2.bodyRoot "state" with
      | Except.error e => Except.error e
      | Except.ok s =>
          Except.ok ⟨u, s, getOptStringField r2.bodyHeap r2.bodyRoot "description",
                     getOptStringField r2.bodyHeap r2.bodyRoot "type"⟩

/-- Modelled from the spec: `operation.wait`, the async operation
follower — if the current snapshot's state is terminal return it
immediately, otherwise poll the operation's URL, parse a new snapshot and
repeat; a poll error aborts the loop and propagates unchanged.  The
environment supplies the successive poll responses as a list; the result
pairs the number of polls issued with the outcome, `none` standing for a
run that exhausts the supplied responses without terminating. -/
def wait : List HttpResponse → Operation → Nat × Option (Except Err Operation)
  | polls, op =>
    if op.isTerminal then (0, some (Except.ok op))
    else
      match polls with
      | [] => (0, none)
      | r :: rest =>
        match pollOperation op.url r with
        | Except.error e => (1, some (Except.error e))
        | Except.ok op2 =>
          let p := wait rest op2
          (p.1 + 1, p.2)

/-- Modelled from the spec: `operation._from_response`, absent from the
excerpt — check the POST response for success and deserialize the initial
operation snapshot from its body, which must carry an identifier and a
state; the identifier locates the operation on the instance. -/
def _from_response (inst : String) (r : HttpResponse) : Except Err Operation :=
  match successful r with
  | Except.error e => Except.error e
  | Except.ok r2 =>
    match getStringField r2.bodyHeap r2.bodyRoot "id" with
    | Except.error e => Except.error e
    | Except.ok i =>
      match getStringField r2.bodyHeap r2.bodyRoot "state" with
      | Except.error e => Except.error e
      | Except.ok s =>
          Except.ok ⟨⟨inst, "operations/" ++ i⟩, s,
                     getOptStringField r2.bodyHeap r2.bodyRoot "description",
                     getOptStringField r2.bodyHeap r2.bodyRoot "type"⟩

/-- `_apply_changes_async` from `unified.py`: POST to
`str(unified_dataset.url) + ":refresh"` and parse the response into the
initial operation snapshot.  The POST transport is a function from target
to response; the list records the targets POSTed to, in order. -/
def _apply_changes_async (post : String → HttpResponse)
    (unified_dataset : UnifiedDataset) : List String × Except Err Operation :=
  let target := strURL unified_dataset.url ++ ":refresh"
  ([target], _from_response unified_dataset.url.inst (post target))

/-- `apply_changes` from `unified.py`: submit the refresh and wait for
the operation to resolve; an error from submission propagates before any
poll is issued. -/
def apply_changes (post : String → HttpResponse) (polls : List HttpResponse)
    (unified_dataset : UnifiedDataset) :
    List String × (Nat × Option (Except Err Operation)) :=
  let p := _apply_changes_async post unified_dataset
  match p.2 with
  | Except.error e => (p.1, (0, some (Except.error e)))
  | Except.ok op => (p.1, wait polls op)

/-- A dataset resource held by the server, as seen through
`tamr_unify_client`: its name plus the rest of its resource JSON,
abstracted as an opaque payload string. -/
structure DatasetResource where
  name : String
  payload : String
deriving Repr, DecidableEq

/-- Modelled from the spec: the client handle, reduced to the collection
of dataset resources on the server that name-based lookup searches. -/
structure Client where
  datasets : List DatasetResource
deriving Repr, DecidableEq

/-- Modelled from the spec: `client.datasets.by_name`, absent from the
excerpt — look a dataset up on the server by its exact name. -/
def by_name (c : Client) (name : String) : Option DatasetResource :=
  c.datasets.find? (fun d => d.name == name)

/-- A mastering project from `mastering.py`.  `unified_dataset` is
modelled from the spec as the already-fetched unified dataset resource of
the project (the accessor itself lives outside the excerpt); only its
`name` is consulted here. -/
structure MasteringProject where
  client : Client
  api_path : String
  unified_dataset : DatasetResource
deriving Repr, DecidableEq

/-- A dataset wrapper carrying the canonical resource JSON and the alias
path it was rebound to (`Dataset.from_json(client, resource_json, alias)`
in the source, with `Dataset.from_json` outside the excerpt). -/
structure AliasedDataset where
  resource : DatasetResource
  aliasPath : String
deriving Repr, DecidableEq

/-- `published_clusters` from `mastering.py`: grab the dataset named
`unified_dataset.name + "_dedup_published_clusters"` by name and rebind
its resource JSON under the `publishedClusters` alias of the project. -/
def published_clusters (p : MasteringProject) : Option AliasedDataset :=
  let name := p.unified_dataset.name ++ "_dedup_published_clusters"
  (by_name p.client name).map
    (fun canonical => ⟨canonical, p.api_path ++ "/publishedClusters"⟩)

/-- `record_clusters_with_data` from `mastering.py`: grab the dataset
named `unified_dataset.name + "_dedup_clusters_with_data"` by name. -/
def record_clusters_with_data (p : MasteringProject) : Option DatasetResource :=
  let name := p.unified_dataset.name ++ "_dedup_clusters_with_data"
  by_name p.client name

/-- `published_clusters_with_data` from `mastering.py`: grab the dataset
named `unified_dataset.name + "_dedup_published_clusters_with_data"`. -/
def published_clusters_with_data (p : MasteringProject) : Option DatasetResource :=
  let name := p.unified_dataset.name ++ "_dedup_published_clusters_with_data"
  by_name p.client name

/-- Region invariant: every cell at or above base `n` refers only to
addresses at or above `n` and within the heap.  Freshly copied or
allocated regions satisfy it with `n` the old heap length. -/
def regionGE (n : Nat) (h : Heap) : Prop :=
  ∀ i c, n ≤ i → h[i]? = some c → ∀ r ∈ c.refs, n ≤ r ∧ r < h.length

/-- The copy of one address: the original is in the old heap, the copy is
fresh, and both read out to the same JSON value at every fuel. -/
def RWeak (h h' : Heap) (x x' : Nat) : Prop :=
  x < h.length ∧ h.length ≤ x' ∧ x' < h'.length ∧
  ∀ f, readV f h' x' = readV f h x

/-- One-level structural correspondence between an original cell and its
copy: primitives are copied verbatim; containers become fresh containers
whose children are copies (dict keys are kept). -/
def shapeStep (h h' : Heap) (c : Cell) (x' : Nat) : Prop :=
  match c with
  | Cell.array es => ∃ es', h'[x']? = some (Cell.array es') ∧
      List.Forall₂ (RWeak h h') es es'
  | Cell.dict fs => ∃ vs,
      h'[x']? = some (Cell.dict ((fs.map Prod.fst).zip vs)) ∧
      List.Forall₂ (RWeak h h') (fs.map Prod.snd) vs
  | c => h'[x']? = some c

/-- A copy that also matches the original's top-level structure. -/
def RStrong (h h' : Heap) (x x' : Nat) : Prop :=
  RWeak h h' x x' ∧ ∀ c, h[x]? = some c → shapeStep h h' c x'

/-- Two-level structural correspondence: like `shapeStep`, but the
children are themselves one-level structural copies. -/
def shapeStepD (h h' : Heap) (c : Cell) (x' : Nat) : Prop :=
  match c with
  | Cell.array es => ∃ es', h'[x']? = some (Cell.array es') ∧
      List.Forall₂ (RStrong h h') es es'
  | Cell.dict fs => ∃ vs,
      h'[x']? = some (Cell.dict ((fs.map Prod.fst).zip vs)) ∧
      List.Forall₂ (RStrong h h') (fs.map Prod.snd) vs
  | c => h'[x']? = some c

/-- A copy matching the original's structure two levels deep. -/
def RDeep (h h' : Heap) (x x' : Nat) : Prop :=
  RWeak h h' x x' ∧ ∀ c, h[x]? = some c → shapeStepD h h' c x'

/-- Everything `deepcopyA` guarantees: pure extension, closedness, the
fresh-region invariant, and a structural value-preserving copy. -/
def CopyAPost (h : Heap) (a : Nat) (h' : Heap) (a' : Nat) : Prop :=
  (∃ ext, h' = h ++ ext) ∧ heapClosed h' ∧ regionGE h.length h' ∧
  RDeep h h' a a'

/-- The copy postcondition, at a given fuel, for all inputs. -/
def AspecAt (fuel : Nat) : Prop :=
  ∀ h a h' a', heapClosed h → deepcopyA fuel h a = some (h', a') →
    CopyAPost h a h' a'

/-- The readout of a freshly allocated one-string cell. -/
def primRead (f : Nat) (s : String) : Option Json :=
  match f with
  | 0 => none
  | _+1 => some (Json.string s)

/-- What `tuple(x)` denotes, read off the original heap: the element
readouts for an array, the key readouts for a dict, the one-character
readouts for a string, nothing for a non-iterable. -/
def tupleView (f : Nat) (h : Heap) (x : Nat) : Option (List (Option Json)) :=
  match h[x]? with
  | some (Cell.array es) => some (es.map (readV f h))
  | some (Cell.dict gs) => some (gs.map (fun p => primRead f p.1))
  | some (Cell.string s) =>
      some (s.data.map (fun c => primRead f (String.mk [c])))
  | _ => none

/-- The full field readout of a dataset snapshot: the values reachable
from its `name`, `key_attribute_names` and `description` references.
Python `==` on the frozen dataclass compares exactly these values. -/
def fieldRead (f : Nat) (h : Heap) (u : UnifiedDataset) :
    Option Json × List (Option Json) × Option (Option Json) :=
  (readV f h u.name, u.key_attribute_names.map (readV f h),
   u.description.map (readV f h))

/-- Cells at or above `n` refer only at or above `n`. -/
def freshRefs (n : Nat) (h : Heap) : Prop :=
  ∀ i c, n ≤ i → h[i]? = some c → ∀ r ∈ c.refs, n ≤ r

/-! ## Helper lemmas on the follower -/

/-- A terminal snapshot stops the follower at once, whatever responses
the environment would have supplied. -/
theorem wait_stop (polls : List HttpResponse) (op : Operation)
    (h : op.isTerminal = true) : wait polls op = (0, some (Except.ok op)) := by
  cases polls <;> simp [wait, h]

/-- A successfully parsed poll snapshot keeps the operation URL. -/
theorem pollOperation_url {u : URL} {r : HttpResponse} {o : Operation}
    (h : pollOperation u r = Except.ok o) : o.url = u := by
  unfold pollOperation at h
  split at h
  · cases h
  · split at h
    · cases h
    · split at h
      · cases h
      · injection h with h2
        subst h2
        rfl

/-- Any snapshot the follower returns successfully is either the initial
snapshot or was parsed from one of the supplied poll responses. -/
theorem wait_result_provenance (polls : List HttpResponse) (op : Operation)
    (n : Nat) (o : Operation)
    (h : wait polls op = (n, some (Except.ok o))) :
    o = op ∨ ∃ r ∈ polls, pollOperation op.url r = Except.ok o := by
  induction polls generalizing op n with
  | nil =>
    rw [wait] at h
    split at h
    · cases h; left; rfl
    · cases h
  | cons r rest ih =>
    rw [wait] at h
    split at h
    · cases h; left; rfl
    · split at h
      · simp at h
      · rename_i op2 hp
        dsimp only at h
        have h2 : (wait rest op2).2 = some (Except.ok o) := by
          have := congrArg Prod.snd h
          simpa using this
        have h3 : wait rest op2 = ((wait rest op2).1, some (Except.ok o)) := by
          rw [← h2]
        rcases ih op2 (wait rest op2).1 h3 with rfl | ⟨r', hr', hpr⟩
        · right; exact ⟨r, List.mem_cons_self r rest, hp⟩
        · right
          refine ⟨r', List.mem_cons_of_mem r hr', ?_⟩
          rwa [pollOperation_url hp] at hpr

/-- One follower step on a non-terminal snapshot and a successfully
parsed poll response. -/
theorem wait_step (r : HttpResponse) (rest : List HttpResponse)
    (op op2 : Operation) (h0 : op.isTerminal = false)
    (hp : pollOperation op.url r = Except.ok op2) :
    wait (r :: rest) op = ((wait rest op2).1 + 1, (wait rest op2).2) := by
  rw [wait]
  simp only [h0, Bool.false_eq_true, if_false]
  rw [hp]

/-- One follower step on a non-terminal snapshot and a failing poll. -/
theorem wait_error_step (r : HttpResponse) (rest : List HttpResponse)
    (op : Operation) (e : Err) (h0 : op.isTerminal = false)
    (hp : pollOperation op.url r = Except.error e) :
    wait (r :: rest) op = (1, some (Except.error e)) := by
  rw [wait]
  simp only [h0, Bool.false_eq_true, if_false]
  rw [hp]

/-! ## Claim theorems: the follower -/

/-- C1: for every Operation snapshot whose state is already in the
terminal set, the follower returns that snapshot immediately, issuing
zero further network calls. -/
theorem claim_terminal_snapshot_returns_immediately
    (polls : List HttpResponse) (op : Operation)
    (h : op.isTerminal = true) :
    wait polls op = (0, some (Except.ok op)) :=
  wait_stop polls op h

/-- Witness for C1: an initial `FAILED` snapshot returns at once with
zero polls, even though a response was available. -/
theorem claim_terminal_snapshot_returns_immediately_witness :
    wait [⟨200, [Cell.dict []], 0⟩] ⟨⟨"i", "operations/1"⟩, "FAILED", none, none⟩
      = (0, some (Except.ok ⟨⟨"i", "operations/1"⟩, "FAILED", none, none⟩)) :=
  claim_terminal_snapshot_returns_immediately _ _ (by decide)

/-- C2: after n poll responses parsing to non-terminal snapshots followed
by one parsing to a terminal snapshot, the follower returns the terminal
snapshot after exactly n+1 polls. -/
theorem claim_polls_until_terminal (op : Operation) (rs : List HttpResponse)
    (rt : HttpResponse) (o : Operation)
    (h0 : op.isTerminal = false)
    (hrs : ∀ r ∈ rs, ∃ o2, pollOperation op.url r = Except.ok o2 ∧
             o2.isTerminal = false)
    (ht : pollOperation op.url rt = Except.ok o)
    (hterm : o.isTerminal = true) :
    wait (rs ++ [rt]) op = (rs.length + 1, some (Except.ok o)) := by
  induction rs generalizing op with
  | nil =>
    rw [List.nil_append, wait_step rt [] op o h0 ht, wait_stop [] o hterm]
    simp
  | cons r rs2 ih =>
    obtain ⟨o2, hpo, hnt⟩ := hrs r (List.mem_cons_self r rs2)
    rw [List.cons_append, wait_step r (rs2 ++ [rt]) op o2 h0 hpo]
    have hrs2 : ∀ r2 ∈ rs2, ∃ o3, pollOperation o2.url r2 = Except.ok o3 ∧
        o3.isTerminal = false := by
      intro r2 hr2
      rw [pollOperation_url hpo]
      exact hrs r2 (List.mem_cons_of_mem r hr2)
    have ht2 : pollOperation o2.url rt = Except.ok o := by
      rw [pollOperation_url hpo]; exact ht
    rw [ih o2 hnt hrs2 ht2]
    simp [List.length_cons]

/-- Witness for C2: `PENDING` → poll `RUNNING` → poll `SUCCEEDED`
returns the `SUCCEEDED` snapshot after exactly two polls. -/
theorem claim_polls_until_terminal_witness :
    wait [⟨200, [Cell.string "RUNNING", Cell.dict [("state", 0)]], 1⟩,
          ⟨200, [Cell.string "SUCCEEDED", Cell.dict [("state", 0)]], 1⟩]
         ⟨⟨"i", "operations/1"⟩, "PENDING", none, none⟩
      = (2, some (Except.ok ⟨⟨"i", "operations/1"⟩, "SUCCEEDED", none, none⟩)) :=
  claim_polls_until_terminal ⟨⟨"i", "operations/1"⟩, "PENDING", none, none⟩
    [⟨200, [Cell.string "RUNNING", Cell.dict [("state", 0)]], 1⟩]
    ⟨200, [Cell.string "SUCCEEDED", Cell.dict [("state", 0)]], 1⟩
    ⟨⟨"i", "operations/1"⟩, "SUCCEEDED", none, none⟩
    (by decide)
    (by
      intro r hr
      simp only [List.mem_singleton] at hr
      subst hr
      exact ⟨⟨⟨"i", "operations/1"⟩, "RUNNING", none, none⟩, by rfl, by decide⟩)
    (by rfl) (by decide)

/-! ## Claim theorems: error handling of the accessor -/

/-- C4: the resource accessors (`_from_url`, and `from_project` through
it) raise the `NotFound` error kind if and only if the GET returned
status 404; on 404 no dataset is returned. -/
theorem claim_notFound_iff_404 (fuel : Nat) (url : URL) (r : HttpResponse)
    (inst : String) (project : Project) :
    (r.status = 404 →
      _from_url fuel url r = Except.error (Err.notFound (strURL url))) ∧
    (∀ s, _from_url fuel url r = Except.error (Err.notFound s) →
      r.status = 404) ∧
    (r.status = 404 →
      from_project fuel inst project r = Except.error
        (Err.notFound (strURL ⟨inst, project.url.path ++ "/unifiedDataset"⟩))) ∧
    (∀ s, from_project fuel inst project r = Except.error (Err.notFound s) →
      r.status = 404) := by
  have fwd : r.status = 404 →
      _from_url fuel url r = Except.error (Err.notFound (strURL url)) := by
    intro h404
    unfold _from_url
    simp [h404]
  have bwd : ∀ u2 s, _from_url fuel u2 r = Except.error (Err.notFound s) →
      r.status = 404 := by
    intro u2 s h
    unfold _from_url at h
    split at h
    · assumption
    · split at h
      · rename_i e heq
        unfold successful at heq
        split at heq
        · cases heq
        · injection heq with he
          subst he
          cases h
      · split at h
        · cases h
        · cases h
  refine ⟨fwd, fun s => bwd url s, ?_, ?_⟩
  · intro h404
    unfold from_project
    unfold _from_url
    simp [h404]
  · intro s h
    exact bwd ⟨inst, project.url.path ++ "/unifiedDataset"⟩ s h

/-- Witness for C4: a 404 GET response yields the `NotFound` error. -/
theorem claim_notFound_iff_404_witness :
    _from_url 5 ⟨"i", "datasets/1"⟩ ⟨404, [Cell.dict []], 0⟩
      = Except.error (Err.notFound "i/api/versioned/v1/datasets/1") ∧ (404 : Nat) = 404 :=
  ⟨(claim_notFound_iff_404 5 ⟨"i", "datasets/1"⟩ ⟨404, [Cell.dict []], 0⟩
      "i" ⟨⟨"i", "projects/1"⟩⟩).1 rfl,
   (claim_notFound_iff_404 5 ⟨"i", "datasets/1"⟩ ⟨404, [Cell.dict []], 0⟩
      "i" ⟨⟨"i", "projects/1"⟩⟩).2.1 "i/api/versioned/v1/datasets/1"
      ((claim_notFound_iff_404 5 ⟨"i", "datasets/1"⟩ ⟨404, [Cell.dict []], 0⟩
        "i" ⟨⟨"i", "projects/1"⟩⟩).1 rfl)⟩

/-- C5: a non-success status other than 404 surfaces as the transport
error kind, unchanged, from the accessor and from the follower, and
neither retries: the follower issues exactly one poll whatever further
responses are available. -/
theorem claim_transport_error_propagates (fuel : Nat) (url : URL)
    (r : HttpResponse) (polls : List HttpResponse) (op : Operation)
    (hns : ¬ (200 ≤ r.status ∧ r.status < 300)) (h404 : r.status ≠ 404) :
    _from_url fuel url r = Except.error (Err.httpError r.status) ∧
    (op.isTerminal = false →
      wait (r :: polls) op = (1, some (Except.error (Err.httpError r.status)))) := by
  constructor
  · unfold _from_url
    simp only [h404, if_false]
    unfold successful
    simp [hns]
  · intro h0
    refine wait_error_step r polls op _ h0 ?_
    unfold pollOperation
    simp only [h404, if_false]
    unfold successful
    simp [hns]

/-- Witness for C5: an HTTP 500 yields the transport error from the
accessor, and the follower stops after exactly one poll although another
response was available. -/
theorem claim_transport_error_propagates_witness :
    _from_url 5 ⟨"i", "datasets/1"⟩ ⟨500, [Cell.dict []], 0⟩
      = Except.error (Err.httpError 500) ∧
    wait [⟨500, [Cell.dict []], 0⟩, ⟨200, [Cell.dict []], 0⟩]
         ⟨⟨"i", "operations/1"⟩, "PENDING", none, none⟩
      = (1, some (Except.error (Err.httpError 500))) := by
  have h := claim_transport_error_propagates 5 ⟨"i", "datasets/1"⟩
    ⟨500, [Cell.dict []], 0⟩ [⟨200, [Cell.dict []], 0⟩]
    ⟨⟨"i", "operations/1"⟩, "PENDING", none, none⟩ (by decide) (by decide)
  exact ⟨h.1, h.2 (by decide)⟩

/-- C6: `apply_changes` issues exactly one POST, to the dataset URL with
`":refresh"` appended, and — when the response parses into an initial
snapshot — returns the result of waiting on that operation. -/
theorem claim_apply_changes_refresh (post : String → HttpResponse)
    (polls : List HttpResponse) (ud : UnifiedDataset) :
    (apply_changes post polls ud).1 = [strURL ud.url ++ ":refresh"] ∧
    (∀ op, _from_response ud.url.inst (post (strURL ud.url ++ ":refresh")) =
        Except.ok op →
      (apply_changes post polls ud).2 = wait polls op) := by
  constructor
  · unfold apply_changes _apply_changes_async
    dsimp only
    split <;> rfl
  · intro op hop
    unfold apply_changes _apply_changes_async
    dsimp only
    rw [hop]

/-- Witness for C6: a concrete refresh POST whose response carries an
identifier and a `PENDING` state resolves through one `SUCCEEDED` poll. -/
theorem claim_apply_changes_refresh_witness :
    (apply_changes
      (fun _ => ⟨200, [Cell.string "5", Cell.string "PENDING",
                       Cell.dict [("id", 0), ("state", 1)]], 2⟩)
      [⟨200, [Cell.string "SUCCEEDED", Cell.dict [("state", 0)]], 1⟩]
      ⟨⟨"i", "datasets/1"⟩, 0, [], none⟩).1
      = ["i/api/versioned/v1/datasets/1:refresh"] ∧
    (apply_changes
      (fun _ => ⟨200, [Cell.string "5", Cell.string "PENDING",
                       Cell.dict [("id", 0), ("state", 1)]], 2⟩)
      [⟨200, [Cell.string "SUCCEEDED", Cell.dict [("state", 0)]], 1⟩]
      ⟨⟨"i", "datasets/1"⟩, 0, [], none⟩).2
      = wait [⟨200, [Cell.string "SUCCEEDED", Cell.dict [("state", 0)]], 1⟩]
             ⟨⟨"i", "operations/5"⟩, "PENDING", none, none⟩ := by
  have h := claim_apply_changes_refresh
    (fun _ => ⟨200, [Cell.string "5", Cell.string "PENDING",
                     Cell.dict [("id", 0), ("state", 1)]], 2⟩)
    [⟨200, [Cell.string "SUCCEEDED", Cell.dict [("state", 0)]], 1⟩]
    ⟨⟨"i", "datasets/1"⟩, 0, [], none⟩
  exact ⟨h.1, h.2 ⟨⟨"i", "operations/5"⟩, "PENDING", none, none⟩ (by rfl)⟩

/-! ## Claim theorem: name-concatenation workaround -/

/-- A by-name lookup only ever returns a dataset bearing exactly the
requested name. -/
theorem by_name_name {c : Client} {n : String} {d : DatasetResource}
    (h : by_name c n = some d) : d.name = n := by
  unfold by_name at h
  have := List.find?_some h
  exact eq_of_beq this

/-- C9: the published-clusters accessors infer the related dataset's
identity by string concatenation on the unified dataset's name:
`_dedup_published_clusters`, `_dedup_clusters_with_data` and
`_dedup_published_clusters_with_data` respectively; any dataset they
return bears exactly that concatenated name. -/
theorem claim_cluster_accessors_concatenate_names (p : MasteringProject) :
    (published_clusters p = (by_name p.client
        (p.unified_dataset.name ++ "_dedup_published_clusters")).map
        (fun canonical => ⟨canonical, p.api_path ++ "/publishedClusters"⟩)) ∧
    (record_clusters_with_data p =
      by_name p.client (p.unified_dataset.name ++ "_dedup_clusters_with_data")) ∧
    (published_clusters_with_data p =
      by_name p.client
        (p.unified_dataset.name ++ "_dedup_published_clusters_with_data")) ∧
    (∀ d, published_clusters p = some d →
      d.resource.name = p.unified_dataset.name ++ "_dedup_published_clusters" ∧
      d.aliasPath = p.api_path ++ "/publishedClusters") ∧
    (∀ d, record_clusters_with_data p = some d →
      d.name = p.unified_dataset.name ++ "_dedup_clusters_with_data") ∧
    (∀ d, published_clusters_with_data p = some d →
      d.name = p.unified_dataset.name ++ "_dedup_published_clusters_with_data") := by
  refine ⟨rfl, rfl, rfl, ?_, ?_, ?_⟩
  · intro d hd
    unfold published_clusters at hd
    rcases Option.map_eq_some'.mp hd with ⟨canonical, hc, hback⟩
    subst hback
    exact ⟨by_name_name hc, rfl⟩
  · intro d hd
    exact by_name_name hd
  · intro d hd
    exact by_name_name hd

/-- Witness for C9: with a unified dataset named `ud`, the accessor finds
the server dataset named `ud_dedup_published_clusters` and rebinds it
under the project alias. -/
theorem claim_cluster_accessors_concatenate_names_witness :
    (⟨"ud_dedup_published_clusters", "x"⟩ : DatasetResource).name
        = "ud" ++ "_dedup_published_clusters" ∧
    ("projects/1/publishedClusters" : String)
        = "projects/1" ++ "/publishedClusters" :=
  (claim_cluster_accessors_concatenate_names
    ⟨⟨[⟨"ud_dedup_published_clusters", "x"⟩]⟩, "projects/1", ⟨"ud", "y"⟩⟩).2.2.2.1
    ⟨⟨"ud_dedup_published_clusters", "x"⟩, "projects/1/publishedClusters"⟩
    (by rfl)

/-! ## Heap lemma library -/

/-- Looking up below the length of the left part ignores an extension. -/
theorem getAppendLeft {l₁ l₂ : List Cell} {i : Nat} (h : i < l₁.length) :
    (l₁ ++ l₂)[i]? = l₁[i]? := by
  rw [List.getElem?_append_left h]

/-- A successful lookup address is in range. -/
theorem lt_of_getSome {l : List Cell} {i : Nat} {c : Cell}
    (h : l[i]? = some c) : i < l.length := by
  by_contra hc
  push_neg at hc
  rw [List.getElem?_eq_none hc] at h
  cases h

/-- Reading a list of addresses is pointwise-determined. -/
theorem readVL_congr {h1 h2 : Heap} {f : Nat} :
    ∀ {as : List Nat}, (∀ a ∈ as, readV f h2 a = readV f h1 a) →
      readVL f h2 as = readVL f h1 as := by
  intro as
  induction as with
  | nil => intro _; rw [readVL, readVL]
  | cons a as2 ih =>
    intro hp
    rw [readVL, readVL, hp a (List.mem_cons_self _ _),
        ih (fun x hx => hp x (List.mem_cons_of_mem _ hx))]

/-- Reading across two heaps along a pointwise-related address list. -/
theorem readVL_forall₂ {h1 h2 : Heap} {f : Nat} :
    ∀ {as bs : List Nat},
      List.Forall₂ (fun x y => readV f h2 y = readV f h1 x) as bs →
      readVL f h2 bs = readVL f h1 as := by
  intro as bs hf
  induction hf with
  | nil => rw [readVL, readVL]
  | cons hxy _ ih => rw [readVL, readVL, hxy, ih]

/-- On a closed heap, reading an in-range address ignores any extension:
the traversal never reaches the appended region. -/
theorem readV_append {h : Heap} (hc : heapClosed h) (ext : Heap) :
    ∀ f, ∀ a, a < h.length → readV f (h ++ ext) a = readV f h a := by
  intro f
  induction f with
  | zero => intro a _; rw [readV, readV]
  | succ f ih =>
    intro a ha
    rw [readV, readV, getAppendLeft ha]
    cases hcell : h[a]? with
    | none => rfl
    | some c =>
      have hmem : c ∈ h := List.getElem?_mem hcell
      cases c with
      | null => rfl
      | boolean b => rfl
      | number n => rfl
      | string s => rfl
      | array es =>
        dsimp only
        rw [readVL_congr (fun e he => ih e (hc _ hmem e (by simp [Cell.refs, he])))]
      | dict fs =>
        dsimp only
        rw [readVL_congr
          (fun e he => ih e (hc _ hmem e (by simp only [Cell.refs]; exact he)))]

/-- Mutating an address below `n` does not change reads rooted at or
above `n`, provided every cell at or above `n` only refers at or above
`n`. -/
theorem readV_set {h : Heap} {n b : Nat} {v : Cell}
    (hreg : ∀ i c, n ≤ i → h[i]? = some c → ∀ r ∈ c.refs, n ≤ r)
    (hb : b < n) :
    ∀ f, ∀ a, n ≤ a → readV f (h.set b v) a = readV f h a := by
  intro f
  induction f with
  | zero => intro a _; rw [readV, readV]
  | succ f ih =>
    intro a ha
    have hget : (h.set b v)[a]? = h[a]? := List.getElem?_set_ne (by omega)
    rw [readV, readV, hget]
    cases hcell : h[a]? with
    | none => rfl
    | some c =>
      have hrefs : ∀ r ∈ c.refs, n ≤ r := hreg a c ha hcell
      cases c with
      | null => rfl
      | boolean b2 => rfl
      | number n2 => rfl
      | string s => rfl
      | array es =>
        dsimp only
        rw [readVL_congr (fun e he => ih e (hrefs e (by simp [Cell.refs, he])))]
      | dict fs =>
        dsimp only
        rw [readVL_congr
          (fun e he => ih e (hrefs e (by simp only [Cell.refs]; exact he)))]

/-- A heap has the trivial region invariant above its own length. -/
theorem regionGE_self (h : Heap) : regionGE h.length h := by
  intro i c hi hget
  exact absurd (lt_of_getSome hget) (by omega)

/-- Appending a single cell whose references land in the extended heap
preserves closedness. -/
theorem heapClosed_concat {h : Heap} {c : Cell} (hc : heapClosed h)
    (hrefs : ∀ r ∈ c.refs, r < h.length + 1) : heapClosed (h ++ [c]) := by
  intro c2 hc2 r hr
  rw [List.length_append]
  rcases List.mem_append.mp hc2 with hmem | hmem
  · exact lt_of_lt_of_le (hc c2 hmem r hr) (by simp)
  · simp only [List.mem_singleton] at hmem
    subst hmem
    simpa using hrefs r hr

/-- Appending a single well-referenced cell preserves the region
invariant. -/
theorem regionGE_concat {n : Nat} {h1 : Heap} {c : Cell}
    (hr : regionGE n h1)
    (hrefs : ∀ r ∈ c.refs, n ≤ r ∧ r < h1.length + 1) :
    regionGE n (h1 ++ [c]) := by
  intro i c2 hi hget r hr2
  by_cases hlt : i < h1.length
  · rw [getAppendLeft hlt] at hget
    have h3 := hr i c2 hi hget r hr2
    exact ⟨h3.1, by
      simp only [List.length_append, List.length_singleton]
      omega⟩
  · have hlen : i < h1.length + 1 := by
      have := lt_of_getSome hget
      simpa [List.length_append] using this
    have hieq : i = h1.length := by omega
    subst hieq
    rw [List.getElem?_concat_length] at hget
    cases hget
    have h3 := hrefs r hr2
    exact ⟨h3.1, by
      simp only [List.length_append, List.length_singleton]
      omega⟩

/-- Region invariants compose across a pure extension with a larger
base. -/
theorem regionGE_trans {n : Nat} {h1 h2 : Heap} (ext : Heap)
    (he : h2 = h1 ++ ext) (h1r : regionGE n h1) (hn : n ≤ h1.length)
    (h2r : regionGE h1.length h2) : regionGE n h2 := by
  intro i c hi hget r hr
  by_cases hlt : i < h1.length
  · have hget1 : h1[i]? = some c := by
      rw [he, getAppendLeft hlt] at hget
      exact hget
    have := h1r i c hi hget1 r hr
    exact ⟨this.1, lt_of_lt_of_le this.2 (by rw [he]; simp)⟩
  · have := h2r i c (le_of_not_lt hlt) hget r hr
    exact ⟨le_trans hn this.1, this.2⟩

/-- `RWeak` survives extending the copy-side heap. -/
theorem RWeak_ext {h h1 : Heap} {x x' : Nat} (hr : RWeak h h1 x x')
    (hc1 : heapClosed h1) (ext : Heap) : RWeak h (h1 ++ ext) x x' := by
  obtain ⟨hx, hge, hlt, hread⟩ := hr
  refine ⟨hx, hge, by rw [List.length_append]; omega, fun f => ?_⟩
  rw [readV_append hc1 ext f x' hlt, hread f]

/-- `Forall₂` is monotone in the relation, restricted to members. -/
theorem forall₂_imp_mem {α β : Type} {R S : α → β → Prop} :
    ∀ {as : List α} {bs : List β}, List.Forall₂ R as bs →
      (∀ a b, a ∈ as → R a b → S a b) → List.Forall₂ S as bs := by
  intro as bs hf
  induction hf with
  | nil => intro _; exact List.Forall₂.nil
  | cons hab htail ih =>
    intro himp
    exact List.Forall₂.cons (himp _ _ (List.mem_cons_self _ _) hab)
      (ih (fun a b ha => himp a b (List.mem_cons_of_mem _ ha)))

/-- `shapeStep` survives extending the copy-side heap. -/
theorem shapeStep_ext {h h1 : Heap} {c : Cell} {x' : Nat}
    (hs : shapeStep h h1 c x') (hx' : x' < h1.length)
    (hc1 : heapClosed h1) (ext : Heap) : shapeStep h (h1 ++ ext) c x' := by
  cases c with
  | array es =>
    obtain ⟨es', hl, hf⟩ := hs
    exact ⟨es', by rw [getAppendLeft hx']; exact hl,
           hf.imp (fun _ _ hw => RWeak_ext hw hc1 ext)⟩
  | dict fs =>
    obtain ⟨vs, hl, hf⟩ := hs
    exact ⟨vs, by rw [getAppendLeft hx']; exact hl,
           hf.imp (fun _ _ hw => RWeak_ext hw hc1 ext)⟩
  | null =>
    show (h1 ++ ext)[x']? = some Cell.null
    rw [getAppendLeft hx']
    exact hs
  | boolean b =>
    show (h1 ++ ext)[x']? = some (Cell.boolean b)
    rw [getAppendLeft hx']
    exact hs
  | number n =>
    show (h1 ++ ext)[x']? = some (Cell.number n)
    rw [getAppendLeft hx']
    exact hs
  | string s =>
    show (h1 ++ ext)[x']? = some (Cell.string s)
    rw [getAppendLeft hx']
    exact hs

/-- `RStrong` survives extending the copy-side heap. -/
theorem RStrong_ext {h h1 : Heap} {x x' : Nat} (hr : RStrong h h1 x x')
    (hc1 : heapClosed h1) (ext : Heap) : RStrong h (h1 ++ ext) x x' := by
  refine ⟨RWeak_ext hr.1 hc1 ext, fun c hc => ?_⟩
  exact shapeStep_ext (hr.2 c hc) hr.1.2.2.1 hc1 ext

/-- `RWeak` survives shrinking the original-side heap back to a closed
prefix containing the original address. -/
theorem RWeak_rebase {h h1 h2 : Heap} {x x' : Nat} (hr : RWeak h1 h2 x x')
    (hc : heapClosed h) (ext : Heap) (he : h1 = h ++ ext)
    (hx : x < h.length) : RWeak h h2 x x' := by
  obtain ⟨_, hge, hlt, hread⟩ := hr
  have hlen : h.length ≤ h1.length := by rw [he]; simp
  refine ⟨hx, by omega, hlt, fun f => ?_⟩
  rw [hread f, he, readV_append hc ext f x hx]

/-- `shapeStep` survives shrinking the original-side heap, provided the
cell's references stay in the prefix. -/
theorem shapeStep_rebase {h h1 h2 : Heap} {c : Cell} {x' : Nat}
    (hs : shapeStep h1 h2 c x') (hc : heapClosed h) (ext : Heap)
    (he : h1 = h ++ ext) (hrefs : ∀ r ∈ c.refs, r < h.length) :
    shapeStep h h2 c x' := by
  cases c with
  | array es =>
    obtain ⟨es', hl, hf⟩ := hs
    refine ⟨es', hl, ?_⟩
    have hlt : ∀ e ∈ es, e < h.length := fun e hee =>
      hrefs e (by simp [Cell.refs, hee])
    exact forall₂_imp_mem hf
      (fun e e' hme hw => RWeak_rebase hw hc ext he (hlt _ hme))
  | dict fs =>
    obtain ⟨vs, hl, hf⟩ := hs
    refine ⟨vs, hl, ?_⟩
    have hlt : ∀ e ∈ fs.map Prod.snd, e < h.length := fun e hee =>
      hrefs e (by simp only [Cell.refs]; exact hee)
    exact forall₂_imp_mem hf
      (fun e e' hme hw => RWeak_rebase hw hc ext he (hlt _ hme))
  | null => exact hs
  | boolean b => exact hs
  | number n => exact hs
  | string s => exact hs

/-- `RStrong` survives shrinking the original-side heap. -/
theorem RStrong_rebase {h h1 h2 : Heap} {x x' : Nat} (hr : RStrong h1 h2 x x')
    (hc : heapClosed h) (ext : Heap) (he : h1 = h ++ ext)
    (hx : x < h.length) : RStrong h h2 x x' := by
  refine ⟨RWeak_rebase hr.1 hc ext he hx, fun c hcell => ?_⟩
  have hcell1 : h1[x]? = some c := by rw [he, getAppendLeft hx]; exact hcell
  have hmem : c ∈ h := List.getElem?_mem hcell
  exact shapeStep_rebase (hr.2 c hcell1) hc ext he
    (fun r hr2 => hc c hmem r hr2)

/-- A one-level structural copy reads out to the same JSON value as the
original, at every fuel. -/
theorem shapeStep_read {h h' : Heap} {c : Cell} {x x' : Nat}
    (hx : h[x]? = some c) (hs : shapeStep h h' c x') :
    ∀ f, readV f h' x' = readV f h x := by
  intro f
  cases f with
  | zero => rw [readV, readV]
  | succ f =>
    cases c with
    | null => rw [readV, readV, hx, hs]
    | boolean b => rw [readV, readV, hx, hs]
    | number n => rw [readV, readV, hx, hs]
    | string s => rw [readV, readV, hx, hs]
    | array es =>
      obtain ⟨es', hl, hf⟩ := hs
      rw [readV, readV, hx, hl]
      dsimp only
      rw [readVL_forall₂ (hf.imp (fun _ _ hw => hw.2.2.2 f))]
    | dict fs =>
      obtain ⟨vs, hl, hf⟩ := hs
      have hlen : (fs.map Prod.snd).length = vs.length := hf.length_eq
      have hlenk : vs.length ≤ (fs.map Prod.fst).length := by
        simp only [List.length_map] at hlen ⊢
        omega
      have hsnd : ((fs.map Prod.fst).zip vs).map Prod.snd = vs :=
        List.map_snd_zip _ _ hlenk
      have hfst : ((fs.map Prod.fst).zip vs).map Prod.fst = fs.map Prod.fst :=
        List.map_fst_zip _ _ (by simp only [List.length_map] at hlen ⊢; omega)
      rw [readV, readV, hx, hl]
      dsimp only
      rw [hsnd, hfst, readVL_forall₂ (hf.imp (fun _ _ hw => hw.2.2.2 f))]

/-- Looking a key up in a copied dict (same keys, pointwise-related
values) mirrors the lookup in the original. -/
theorem dictLookup_zip {R : Nat → Nat → Prop} :
    ∀ {fs : List (String × Nat)} {vs : List Nat},
      List.Forall₂ R (fs.map Prod.snd) vs → ∀ k,
      (dictLookup fs k = none ∧
        dictLookup ((fs.map Prod.fst).zip vs) k = none) ∨
      (∃ x y, dictLookup fs k = some x ∧
        dictLookup ((fs.map Prod.fst).zip vs) k = some y ∧ R x y) := by
  intro fs
  induction fs with
  | nil =>
    intro vs hf k
    cases hf
    exact Or.inl ⟨rfl, rfl⟩
  | cons p fs2 ih =>
    intro vs hf k
    obtain ⟨pk, pv⟩ := p
    cases hf with
    | cons hR hf2 =>
      rename_i y vs2
      by_cases hk : pk = k
      · right
        exact ⟨pv, y, by rw [dictLookup]; simp [hk],
               by rw [List.map_cons, List.zip_cons_cons, dictLookup]; simp [hk], hR⟩
      · rcases ih hf2 k with ⟨h1, h2⟩ | ⟨x, y2, h1, h2, hR2⟩
        · left
          constructor
          · rw [dictLookup]; simp [hk, h1]
          · rw [List.map_cons, List.zip_cons_cons, dictLookup]
            simp [hk, h2]
        · right
          refine ⟨x, y2, ?_, ?_, hR2⟩
          · rw [dictLookup]; simp [hk, h1]
          · rw [List.map_cons, List.zip_cons_cons, dictLookup]
            simp [hk, h2]

/-- Specification of `allocCells`: the heap is extended by exactly the
requested cells, and the returned addresses point at them in order. -/
theorem allocCells_spec :
    ∀ (cs : List Cell) (h h' : Heap) (as : List Nat),
      allocCells h cs = (h', as) →
      h' = h ++ cs ∧
      List.Forall₂
        (fun c a => h.length ≤ a ∧ a < h'.length ∧ h'[a]? = some c) cs as := by
  intro cs
  induction cs with
  | nil =>
    intro h h' as heq
    rw [allocCells] at heq
    injection heq with h1 h2
    subst h1; subst h2
    exact ⟨by simp, List.Forall₂.nil⟩
  | cons c cs2 ih =>
    intro h h' as heq
    rw [allocCells] at heq
    cases hrec : allocCells (h ++ [c]) cs2 with
    | mk h2 as2 =>
      rw [hrec] at heq
      dsimp only at heq
      injection heq with he1 he2
      subst he1; subst he2
      obtain ⟨hext, hf⟩ := ih (h ++ [c]) h2 as2 hrec
      have hlenle : (h ++ [c]).length ≤ h2.length := by rw [hext]; simp
      refine ⟨by rw [hext]; simp, List.Forall₂.cons ?_ ?_⟩
      · refine ⟨le_refl _, ?_, ?_⟩
        · have h4 : h.length < (h ++ [c]).length := by simp
          omega
        · rw [hext]
          rw [getAppendLeft (by simp : h.length < (h ++ [c]).length)]
          exact List.getElem?_concat_length h c
      · exact hf.imp (fun c2 a2 hp =>
          ⟨le_trans (by simp) hp.1, hp.2.1, hp.2.2⟩)

/-- Two-level correspondence weakens to one level. -/
theorem shapeStepD_weaken {h h' : Heap} {c : Cell} {x' : Nat}
    (hs : shapeStepD h h' c x') : shapeStep h h' c x' := by
  cases c with
  | array es =>
    obtain ⟨es', hl, hf⟩ := hs
    exact ⟨es', hl, hf.imp (fun _ _ hw => hw.1)⟩
  | dict fs =>
    obtain ⟨vs, hl, hf⟩ := hs
    exact ⟨vs, hl, hf.imp (fun _ _ hw => hw.1)⟩
  | null => exact hs
  | boolean b => exact hs
  | number n => exact hs
  | string s => exact hs

/-- A two-level copy is in particular a one-level copy. -/
theorem RDeep_strong {h h' : Heap} {x x' : Nat} (hr : RDeep h h' x x') :
    RStrong h h' x x' :=
  ⟨hr.1, fun c hc => shapeStepD_weaken (hr.2 c hc)⟩

/-- `shapeStepD` survives extending the copy-side heap. -/
theorem shapeStepD_ext {h h1 : Heap} {c : Cell} {x' : Nat}
    (hs : shapeStepD h h1 c x') (hx' : x' < h1.length)
    (hc1 : heapClosed h1) (ext : Heap) : shapeStepD h (h1 ++ ext) c x' := by
  cases c with
  | array es =>
    obtain ⟨es', hl, hf⟩ := hs
    exact ⟨es', by rw [getAppendLeft hx']; exact hl,
           hf.imp (fun _ _ hw => RStrong_ext hw hc1 ext)⟩
  | dict fs =>
    obtain ⟨vs, hl, hf⟩ := hs
    exact ⟨vs, by rw [getAppendLeft hx']; exact hl,
           hf.imp (fun _ _ hw => RStrong_ext hw hc1 ext)⟩
  | null =>
    show (h1 ++ ext)[x']? = some Cell.null
    rw [getAppendLeft hx']
    exact hs
  | boolean b =>
    show (h1 ++ ext)[x']? = some (Cell.boolean b)
    rw [getAppendLeft hx']
    exact hs
  | number n =>
    show (h1 ++ ext)[x']? = some (Cell.number n)
    rw [getAppendLeft hx']
    exact hs
  | string s =>
    show (h1 ++ ext)[x']? = some (Cell.string s)
    rw [getAppendLeft hx']
    exact hs

/-- `RDeep` survives extending the copy-side heap. -/
theorem RDeep_ext {h h1 : Heap} {x x' : Nat} (hr : RDeep h h1 x x')
    (hc1 : heapClosed h1) (ext : Heap) : RDeep h (h1 ++ ext) x x' := by
  refine ⟨RWeak_ext hr.1 hc1 ext, fun c hc => ?_⟩
  exact shapeStepD_ext (hr.2 c hc) hr.1.2.2.1 hc1 ext

/-- `shapeStepD` survives shrinking the original-side heap. -/
theorem shapeStepD_rebase {h h1 h2 : Heap} {c : Cell} {x' : Nat}
    (hs : shapeStepD h1 h2 c x') (hc : heapClosed h) (ext : Heap)
    (he : h1 = h ++ ext) (hrefs : ∀ r ∈ c.refs, r < h.length) :
    shapeStepD h h2 c x' := by
  cases c with
  | array es =>
    obtain ⟨es', hl, hf⟩ := hs
    refine ⟨es', hl, ?_⟩
    have hlt : ∀ e ∈ es, e < h.length := fun e hee =>
      hrefs e (by simp [Cell.refs, hee])
    exact forall₂_imp_mem hf
      (fun e e' hme hw => RStrong_rebase hw hc ext he (hlt _ hme))
  | dict fs =>
    obtain ⟨vs, hl, hf⟩ := hs
    refine ⟨vs, hl, ?_⟩
    have hlt : ∀ e ∈ fs.map Prod.snd, e < h.length := fun e hee =>
      hrefs e (by simp only [Cell.refs]; exact hee)
    exact forall₂_imp_mem hf
      (fun e e' hme hw => RStrong_rebase hw hc ext he (hlt _ hme))
  | null => exact hs
  | boolean b => exact hs
  | number n => exact hs
  | string s => exact hs

/-- `RDeep` survives shrinking the original-side heap. -/
theorem RDeep_rebase {h h1 h2 : Heap} {x x' : Nat} (hr : RDeep h1 h2 x x')
    (hc : heapClosed h) (ext : Heap) (he : h1 = h ++ ext)
    (hx : x < h.length) : RDeep h h2 x x' := by
  refine ⟨RWeak_rebase hr.1 hc ext he hx, fun c hcell => ?_⟩
  have hcell1 : h1[x]? = some c := by rw [he, getAppendLeft hx]; exact hcell
  have hmem : c ∈ h := List.getElem?_mem hcell
  exact shapeStepD_rebase (hr.2 c hcell1) hc ext he
    (fun r hr2 => hc c hmem r hr2)

/-- `Forall₂` produces a related left witness for each right member. -/

theorem forall₂_mem_right {α β : Type} {R : α → β → Prop} :
    ∀ {as : List α} {bs : List β}, List.Forall₂ R as bs →
      ∀ b ∈ bs, ∃ a, R a b := by
  intro as bs hf
  induction hf with
  | nil => intro b hb; cases hb
  | cons hab _ ih =>
    intro b hb
    rcases List.mem_cons.mp hb with rfl | hb2
    · exact ⟨_, hab⟩
    · exact ih b hb2

/-- Builder for the copy postcondition when the copy ends by appending
one cell on top of an already-valid intermediate heap. -/
theorem CopyAPost_build {h h1 : Heap} {a : Nat} {c c' : Cell}
    (hcell : h[a]? = some c)
    (hext1 : ∃ ext, h1 = h ++ ext) (hc1 : heapClosed h1)
    (hr1 : regionGE h.length h1)
    (hrefs : ∀ r ∈ c'.refs, h.length ≤ r ∧ r < h1.length + 1)
    (hshape : shapeStepD h (h1 ++ [c']) c h1.length) :
    CopyAPost h a (h1 ++ [c']) h1.length := by
  have ha : a < h.length := lt_of_getSome hcell
  obtain ⟨e1, he1⟩ := hext1
  have hlen1 : h.length ≤ h1.length := by rw [he1]; simp
  refine ⟨⟨e1 ++ [c'], by rw [he1, List.append_assoc]⟩, ?_, ?_, ?_⟩
  · exact heapClosed_concat hc1 (fun r hr => (hrefs r hr).2)
  · exact regionGE_concat hr1 hrefs
  · refine ⟨⟨ha, hlen1, by simp,
      shapeStep_read hcell (shapeStepD_weaken hshape)⟩, ?_⟩
    intro c2 hc2
    rw [hcell] at hc2
    injection hc2 with he
    exact he ▸ hshape

/-- The list-copy postcondition, derived from the single-address one at
the same fuel. -/
theorem copyL_spec_of (fuel : Nat) (IH : AspecAt fuel) :
    ∀ (as : List Nat) (h h' : Heap) (as' : List Nat), heapClosed h →
      (∀ x ∈ as, x < h.length) →
      deepcopyL fuel h as = some (h', as') →
      (∃ ext, h' = h ++ ext) ∧ heapClosed h' ∧ regionGE h.length h' ∧
      List.Forall₂ (RDeep h h') as as' := by
  intro as
  induction as with
  | nil =>
    intro h h' as' hc _ heq
    rw [deepcopyL] at heq
    injection heq with he
    cases he
    exact ⟨⟨[], by simp⟩, hc, regionGE_self h, List.Forall₂.nil⟩
  | cons a as2 ih =>
    intro h h' as' hc hbound heq
    rw [deepcopyL] at heq
    cases hA : deepcopyA fuel h a with
    | none => rw [hA] at heq; cases heq
    | some p =>
      obtain ⟨h1, a1⟩ := p
      rw [hA] at heq
      dsimp only at heq
      cases hL : deepcopyL fuel h1 as2 with
      | none => rw [hL] at heq; cases heq
      | some q =>
        obtain ⟨h2, as2'⟩ := q
        rw [hL] at heq
        dsimp only at heq
        injection heq with he
        cases he
        obtain ⟨⟨e1, he1⟩, hc1, hr1, hs1⟩ := IH h a h1 a1 hc hA
        have hb1 : ∀ x ∈ as2, x < h1.length := fun x hx =>
          lt_of_lt_of_le (hbound x (List.mem_cons_of_mem _ hx))
            (by rw [he1]; simp)
        obtain ⟨⟨e2, he2⟩, hc2, hr2, hf2⟩ := ih h1 _ _ hc1 hb1 hL
        refine ⟨⟨e1 ++ e2, by rw [he2, he1, List.append_assoc]⟩, hc2, ?_, ?_⟩
        · exact regionGE_trans e2 he2 hr1 (by rw [he1]; simp) hr2
        · refine List.Forall₂.cons ?_ ?_
          · have hstep := RDeep_ext hs1 hc1 e2
            rw [← he2] at hstep
            exact hstep
          · exact forall₂_imp_mem hf2 (fun x x' hmx hw =>
              RDeep_rebase hw hc e1 he1
                (hbound x (List.mem_cons_of_mem _ hmx)))

/-- The deep copy meets its postcondition at every fuel. -/
theorem copyA_spec : ∀ fuel, AspecAt fuel := by
  intro fuel
  induction fuel with
  | zero =>
    intro h a h' a' _ heq
    rw [deepcopyA] at heq
    cases heq
  | succ fuel ih =>
    intro h a h' a' hc heq
    rw [deepcopyA] at heq
    cases hcell : h[a]? with
    | none => rw [hcell] at heq; cases heq
    | some c =>
      rw [hcell] at heq
      have ha : a < h.length := lt_of_getSome hcell
      have hmem : c ∈ h := List.getElem?_mem hcell
      cases c with
      | null =>
        dsimp only at heq
        injection heq with he
        cases he
        exact CopyAPost_build hcell ⟨[], by simp⟩ hc (regionGE_self h)
          (fun r hr => by simp [Cell.refs] at hr)
          (List.getElem?_concat_length h Cell.null)
      | boolean b =>
        dsimp only at heq
        injection heq with he
        cases he
        exact CopyAPost_build hcell ⟨[], by simp⟩ hc (regionGE_self h)
          (fun r hr => by simp [Cell.refs] at hr)
          (List.getElem?_concat_length h (Cell.boolean b))
      | number n =>
        dsimp only at heq
        injection heq with he
        cases he
        exact CopyAPost_build hcell ⟨[], by simp⟩ hc (regionGE_self h)
          (fun r hr => by simp [Cell.refs] at hr)
          (List.getElem?_concat_length h (Cell.number n))
      | string s =>
        dsimp only at heq
        injection heq with he
        cases he
        exact CopyAPost_build hcell ⟨[], by simp⟩ hc (regionGE_self h)
          (fun r hr => by simp [Cell.refs] at hr)
          (List.getElem?_concat_length h (Cell.string s))
      | array es =>
        dsimp only at heq
        cases hL : deepcopyL fuel h es with
        | none => rw [hL] at heq; cases heq
        | some q =>
          obtain ⟨h1, es'⟩ := q
          rw [hL] at heq
          dsimp only at heq
          injection heq with he
          cases he
          have hbound : ∀ x ∈ es, x < h.length := fun x hx =>
            hc _ hmem x (by simp [Cell.refs, hx])
          obtain ⟨hext1, hc1, hr1, hf⟩ :=
            copyL_spec_of fuel ih es h _ _ hc hbound hL
          refine CopyAPost_build hcell hext1 hc1 hr1 ?_ ?_
          · intro r hr
            simp only [Cell.refs] at hr
            obtain ⟨x, hw⟩ := forall₂_mem_right hf r hr
            exact ⟨hw.1.2.1, by have := hw.1.2.2.1; omega⟩
          · exact ⟨es', List.getElem?_concat_length h1 (Cell.array es'),
              hf.imp (fun _ _ hw =>
                RStrong_ext (RDeep_strong hw) hc1 [Cell.array es'])⟩
      | dict fs =>
        dsimp only at heq
        cases hL : deepcopyL fuel h (fs.map Prod.snd) with
        | none => rw [hL] at heq; cases heq
        | some q =>
          obtain ⟨h1, vs⟩ := q
          rw [hL] at heq
          dsimp only at heq
          injection heq with he
          cases he
          have hbound : ∀ x ∈ fs.map Prod.snd, x < h.length := fun x hx =>
            hc _ hmem x (by simp only [Cell.refs]; exact hx)
          obtain ⟨hext1, hc1, hr1, hf⟩ :=
            copyL_spec_of fuel ih (fs.map Prod.snd) h _ _ hc hbound hL
          have hlen : (fs.map Prod.snd).length = vs.length := hf.length_eq
          have hsnd : ((fs.map Prod.fst).zip vs).map Prod.snd = vs :=
            List.map_snd_zip _ _ (by simp only [List.length_map] at hlen ⊢; omega)
          refine CopyAPost_build hcell hext1 hc1 hr1 ?_ ?_
          · intro r hr
            simp only [Cell.refs, hsnd] at hr
            obtain ⟨x, hw⟩ := forall₂_mem_right hf r hr
            exact ⟨hw.1.2.1, by have := hw.1.2.2.1; omega⟩
          · exact ⟨vs, List.getElem?_concat_length h1 _,
              hf.imp (fun _ _ hw =>
                RStrong_ext (RDeep_strong hw) hc1
                  [Cell.dict ((fs.map Prod.fst).zip vs)])⟩

/-- The full region invariant implies the lower-bound half. -/
theorem freshRefs_of_regionGE {n : Nat} {h : Heap} (hr : regionGE n h) :
    freshRefs n h :=
  fun i c hi hget r hrr => (hr i c hi hget r hrr).1

/-- Appending reference-free cells preserves `freshRefs`. -/
theorem freshRefs_append_norefs {n : Nat} {h1 : Heap} {cs : List Cell}
    (hf : freshRefs n h1) (hcs : ∀ c ∈ cs, c.refs = []) :
    freshRefs n (h1 ++ cs) := by
  intro i c hi hget r hrr
  by_cases hlt : i < h1.length
  · rw [getAppendLeft hlt] at hget
    exact hf i c hi hget r hrr
  · rw [List.getElem?_append_right (le_of_not_lt hlt)] at hget
    have hmem : c ∈ cs := List.getElem?_mem hget
    rw [hcs c hmem] at hrr
    cases hrr

/-- Appending reference-free cells preserves closedness. -/
theorem heapClosed_append_norefs {h1 : Heap} {cs : List Cell}
    (hc : heapClosed h1) (hcs : ∀ c ∈ cs, c.refs = []) :
    heapClosed (h1 ++ cs) := by
  intro c hmem r hrr
  rcases List.mem_append.mp hmem with hm | hm
  · have := hc c hm r hrr
    rw [List.length_append]
    omega
  · rw [hcs c hm] at hrr
    cases hrr

/-- Map readouts across two heaps along a pointwise-related list. -/
theorem map_readV_forall₂ {h1 h2 : Heap} {f : Nat} :
    ∀ {as bs : List Nat},
      List.Forall₂ (fun x y => readV f h2 y = readV f h1 x) as bs →
      bs.map (readV f h2) = as.map (readV f h1) := by
  intro as bs hf
  induction hf with
  | nil => rfl
  | cons hxy _ ih => simp only [List.map_cons, hxy, ih]

/-- Readouts of freshly allocated one-string cells. -/
theorem alloc_string_reads {h2 : Heap} (f : Nat) :
    ∀ {ks : List String} {as : List Nat},
      List.Forall₂ (fun k a => h2[a]? = some (Cell.string k)) ks as →
      as.map (readV f h2) = ks.map (primRead f) := by
  intro ks as hf
  induction hf with
  | nil => rfl
  | @cons k a ks2 as2 hka htail ih =>
    have hhead : readV f h2 a = primRead f k := by
      cases f with
      | zero => rw [readV, primRead]
      | succ f2 => rw [readV, hka, primRead]
    simp only [List.map_cons, hhead, ih]

/-- Name/description reference transport: a copied reference stays
readable, with the same value, in any closed extension of the copy
heap. -/
theorem RWeak_to_final {h h1 h' : Heap} {x x' : Nat} (hw : RWeak h h1 x x')
    (hc1 : heapClosed h1) (e2 : Heap) (he2 : h' = h1 ++ e2) :
    (h.length ≤ x' ∧ x' < h'.length) ∧ ∀ f, readV f h' x' = readV f h x := by
  have hw2 : RWeak h h' x x' := he2 ▸ RWeak_ext hw hc1 e2
  exact ⟨⟨hw2.2.1, hw2.2.2.1⟩, hw2.2.2.2⟩

/-- Everything a successful `_from_json` guarantees: the heap only grows
and stays closed, the new region refers only into itself, the snapshot's
references are all fresh, and every field of the snapshot reads out to
the corresponding value of the original document. -/
theorem from_json_spec {fuel : Nat} {url : URL} {h : Heap} {a : Nat}
    {h' : Heap} {u : UnifiedDataset}
    (hc : heapClosed h)
    (hj : _from_json fuel url h a = Except.ok (h', u)) :
    (∃ ext, h' = h ++ ext) ∧ heapClosed h' ∧ freshRefs h.length h' ∧
    u.url = url ∧
    (h.length ≤ u.name ∧ u.name < h'.length) ∧
    (∀ x ∈ u.key_attribute_names, h.length ≤ x ∧ x < h'.length) ∧
    (∀ x, u.description = some x → h.length ≤ x ∧ x < h'.length) ∧
    ∃ fs na ka, h[a]? = some (Cell.dict fs) ∧
      dictLookup fs "name" = some na ∧
      dictLookup fs "keyAttributeNames" = some ka ∧
      (∀ f, readV f h' u.name = readV f h na) ∧
      (∀ f, some (u.key_attribute_names.map (readV f h')) =
        tupleView f h ka) ∧
      (match dictLookup fs "description" with
       | none => u.description = none
       | some d => ∃ x, u.description = some x ∧
           ∀ f, readV f h' x = readV f h d) := by
  unfold _from_json at hj
  cases hcp : deepcopyA fuel h a with
  | none => rw [hcp] at hj; cases hj
  | some p =>
    obtain ⟨h1, cp⟩ := p
    rw [hcp] at hj
    dsimp only at hj
    obtain ⟨⟨e1, he1⟩, hc1, hr1, hwroot, hshape⟩ :=
      copyA_spec fuel h a h1 cp hc hcp
    have ha : a < h.length := hwroot.1
    cases hc0 : h[a]? with
    | none => rw [List.getElem?_eq_getElem ha] at hc0; cases hc0
    | some c0 =>
      have hsd := hshape c0 hc0
      cases c0 with
      | null =>
        have hpg : pyGetItem h1 cp "name" = Except.error PyErr.typeError := by
          unfold pyGetItem; rw [hsd]
        rw [hpg] at hj; cases hj
      | boolean b =>
        have hpg : pyGetItem h1 cp "name" = Except.error PyErr.typeError := by
          unfold pyGetItem; rw [hsd]
        rw [hpg] at hj; cases hj
      | number n =>
        have hpg : pyGetItem h1 cp "name" = Except.error PyErr.typeError := by
          unfold pyGetItem; rw [hsd]
        rw [hpg] at hj; cases hj
      | string s =>
        have hpg : pyGetItem h1 cp "name" = Except.error PyErr.typeError := by
          unfold pyGetItem; rw [hsd]
        rw [hpg] at hj; cases hj
      | array es =>
        obtain ⟨es', hl, _⟩ := hsd
        have hpg : pyGetItem h1 cp "name" = Except.error PyErr.typeError := by
          unfold pyGetItem; rw [hl]
        rw [hpg] at hj; cases hj
      | dict fs =>
        obtain ⟨vs, hcpl, hfvs⟩ := hsd
        rcases dictLookup_zip hfvs "name" with ⟨hn1, hn2⟩ |
          ⟨na, nameA, hn1, hn2, hRna⟩
        · have hpg : pyGetItem h1 cp "name" =
              Except.error (PyErr.keyError "name") := by
            unfold pyGetItem; rw [hcpl]; dsimp only; rw [hn2]
          rw [hpg] at hj; cases hj
        · have hpg : pyGetItem h1 cp "name" = Except.ok nameA := by
            unfold pyGetItem; rw [hcpl]; dsimp only; rw [hn2]
          rw [hpg] at hj
          dsimp only at hj
          have hpd : pyGet h1 cp "description" = Except.ok
              (dictLookup ((fs.map Prod.fst).zip vs) "description") := by
            unfold pyGet; rw [hcpl]
          rw [hpd] at hj
          dsimp only at hj
          rcases dictLookup_zip hfvs "keyAttributeNames" with ⟨hk1, hk2⟩ |
            ⟨ka, kA, hk1, hk2, hRka⟩
          · have hpk : pyGetItem h1 cp "keyAttributeNames" =
                Except.error (PyErr.keyError "keyAttributeNames") := by
              unfold pyGetItem; rw [hcpl]; dsimp only; rw [hk2]
            rw [hpk] at hj; cases hj
          · have hpk : pyGetItem h1 cp "keyAttributeNames" =
                Except.ok kA := by
              unfold pyGetItem; rw [hcpl]; dsimp only; rw [hk2]
            rw [hpk] at hj
            dsimp only at hj
            obtain ⟨hwka, hshka⟩ := hRka
            have hka_lt : ka < h.length := hwka.1
            cases hkc : h[ka]? with
            | none => rw [List.getElem?_eq_getElem hka_lt] at hkc; cases hkc
            | some c1 =>
              have hsk := hshka c1 hkc
              -- the description data, needed in every surviving branch
              cases c1 with
              | null =>
                have hpt : pyTuple h1 kA = Except.error PyErr.typeError := by
                  unfold pyTuple; rw [hsk]
                rw [hpt] at hj; cases hj
              | boolean b2 =>
                have hpt : pyTuple h1 kA = Except.error PyErr.typeError := by
                  unfold pyTuple; rw [hsk]
                rw [hpt] at hj; cases hj
              | number n2 =>
                have hpt : pyTuple h1 kA = Except.error PyErr.typeError := by
                  unfold pyTuple; rw [hsk]
                rw [hpt] at hj; cases hj
              | array es =>
                obtain ⟨es', hkal, hfes⟩ := hsk
                have hpt : pyTuple h1 kA = Except.ok (h1, es') := by
                  unfold pyTuple; rw [hkal]
                rw [hpt] at hj
                dsimp only at hj
                injection hj with hj2
                injection hj2 with hjh hju
                subst hjh
                subst hju
                refine ⟨⟨e1, he1⟩, hc1, freshRefs_of_regionGE hr1, rfl,
                  ?_, ?_, ?_, fs, na, ka, rfl, hn1, hk1, ?_, ?_, ?_⟩
                · exact ⟨hRna.1.2.1, hRna.1.2.2.1⟩
                · intro x hx
                  obtain ⟨x0, hw⟩ := forall₂_mem_right hfes x hx
                  exact ⟨hw.2.1, hw.2.2.1⟩
                · intro x hx
                  rcases dictLookup_zip hfvs "description" with ⟨hd1, hd2⟩ |
                    ⟨d, y2, hd1, hd2, hRd⟩
                  · rw [hd2] at hx; cases hx
                  · rw [hd2] at hx
                    injection hx with hx2
                    subst hx2
                    exact ⟨hRd.1.2.1, hRd.1.2.2.1⟩
                · exact hRna.1.2.2.2
                · intro f
                  unfold tupleView
                  rw [hkc]
                  dsimp only
                  rw [map_readV_forall₂ (hfes.imp (fun _ _ hw => hw.2.2.2 f))]
                · rcases dictLookup_zip hfvs "description" with ⟨hd1, hd2⟩ |
                    ⟨d, y2, hd1, hd2, hRd⟩
                  · rw [hd1]
                    exact hd2
                  · rw [hd1]
                    exact ⟨y2, hd2, hRd.1.2.2.2⟩
              | dict gs =>
                obtain ⟨vs2, hkal, hfgs⟩ := hsk
                have hlen2 : gs.length = vs2.length := by
                  have := hfgs.length_eq
                  simpa using this
                have hkeys : ((gs.map Prod.fst).zip vs2).map
                    (fun p => Cell.string p.1) =
                    (gs.map Prod.fst).map Cell.string := by
                  have h5 := List.map_fst_zip (gs.map Prod.fst) vs2
                    (by simp [hlen2])
                  calc ((gs.map Prod.fst).zip vs2).map (fun p => Cell.string p.1)
                      = (((gs.map Prod.fst).zip vs2).map Prod.fst).map
                          Cell.string := by
                        rw [List.map_map]
                        simp only [Function.comp_def]
                    _ = (gs.map Prod.fst).map Cell.string := by rw [h5]
                cases hac : allocCells h1 ((gs.map Prod.fst).map Cell.string)
                  with
                | mk h2 ks0
                =>
                have hpt : pyTuple h1 kA = Except.ok (h2, ks0) := by
                  unfold pyTuple; rw [hkal]; dsimp only; rw [hkeys, hac]
                rw [hpt] at hj
                dsimp only at hj
                injection hj with hj2
                injection hj2 with hjh hju
                subst hjh
                subst hju
                obtain ⟨hh2, hfal⟩ := allocCells_spec _ _ _ _ hac
                have hlen1 : h.length ≤ h1.length := by rw [he1]; simp
                have hfal2 := List.forall₂_map_left_iff.mp hfal
                have hcells : ∀ c ∈ (gs.map Prod.fst).map Cell.string,
                    Cell.refs c = [] := by
                  intro c hmc
                  obtain ⟨k, _, hk⟩ := List.mem_map.mp hmc
                  rw [← hk]
                  rfl
                refine ⟨⟨e1 ++ (gs.map Prod.fst).map Cell.string,
                    by rw [hh2, he1, List.append_assoc]⟩,
                  hh2 ▸ heapClosed_append_norefs hc1 hcells,
                  hh2 ▸ freshRefs_append_norefs
                    (freshRefs_of_regionGE hr1) hcells,
                  rfl, ?_, ?_, ?_, fs, na, ka, rfl, hn1, hk1, ?_, ?_, ?_⟩
                · exact (RWeak_to_final hRna.1 hc1 _ hh2).1
                · intro x hx
                  obtain ⟨k, hw⟩ := forall₂_mem_right hfal2 x hx
                  exact ⟨le_trans hlen1 hw.1, hw.2.1⟩
                · intro x hx
                  rcases dictLookup_zip hfvs "description" with ⟨hd1, hd2⟩ |
                    ⟨d, y2, hd1, hd2, hRd⟩
                  · rw [hd2] at hx; cases hx
                  · rw [hd2] at hx
                    injection hx with hx2
                    subst hx2
                    exact (RWeak_to_final hRd.1 hc1 _ hh2).1
                · exact (RWeak_to_final hRna.1 hc1 _ hh2).2
                · intro f
                  unfold tupleView
                  rw [hkc]
                  dsimp only
                  rw [alloc_string_reads f (hfal2.imp (fun _ _ hw => hw.2.2))]
                  rw [List.map_map]
                  simp only [Function.comp_def]
                · rcases dictLookup_zip hfvs "description" with ⟨hd1, hd2⟩ |
                    ⟨d, y2, hd1, hd2, hRd⟩
                  · rw [hd1]
                    exact hd2
                  · rw [hd1]
                    exact ⟨y2, hd2, (RWeak_to_final hRd.1 hc1 _ hh2).2⟩
              | string s =>
                have hchars : s.data.map (fun ch => Cell.string
                    (String.mk [ch])) =
                    (s.data.map (fun ch => String.mk [ch])).map Cell.string := by
                  rw [List.map_map]
                  simp only [Function.comp_def]
                cases hac : allocCells h1
                    ((s.data.map (fun ch => String.mk [ch])).map Cell.string)
                  with
                | mk h2 ks0
                =>
                have hpt : pyTuple h1 kA = Except.ok (h2, ks0) := by
                  unfold pyTuple; rw [hsk]; dsimp only; rw [hchars, hac]
                rw [hpt] at hj
                dsimp only at hj
                injection hj with hj2
                injection hj2 with hjh hju
                subst hjh
                subst hju
                obtain ⟨hh2, hfal⟩ := allocCells_spec _ _ _ _ hac
                have hlen1 : h.length ≤ h1.length := by rw [he1]; simp
                have hfal2 := List.forall₂_map_left_iff.mp hfal
                have hcells : ∀ c ∈ (s.data.map (fun ch => String.mk [ch])).map
                    Cell.string, Cell.refs c = [] := by
                  intro c hmc
                  obtain ⟨k, _, hk⟩ := List.mem_map.mp hmc
                  rw [← hk]
                  rfl
                refine ⟨⟨e1 ++ (s.data.map (fun ch => String.mk [ch])).map
                    Cell.string, by rw [hh2, he1, List.append_assoc]⟩,
                  hh2 ▸ heapClosed_append_norefs hc1 hcells,
                  hh2 ▸ freshRefs_append_norefs
                    (freshRefs_of_regionGE hr1) hcells,
                  rfl, ?_, ?_, ?_, fs, na, ka, rfl, hn1, hk1, ?_, ?_, ?_⟩
                · exact (RWeak_to_final hRna.1 hc1 _ hh2).1
                · intro x hx
                  obtain ⟨k, hw⟩ := forall₂_mem_right hfal2 x hx
                  exact ⟨le_trans hlen1 hw.1, hw.2.1⟩
                · intro x hx
                  rcases dictLookup_zip hfvs "description" with ⟨hd1, hd2⟩ |
                    ⟨d, y2, hd1, hd2, hRd⟩
                  · rw [hd2] at hx; cases hx
                  · rw [hd2] at hx
                    injection hx with hx2
                    subst hx2
                    exact (RWeak_to_final hRd.1 hc1 _ hh2).1
                · exact (RWeak_to_final hRna.1 hc1 _ hh2).2
                · intro f
                  unfold tupleView
                  rw [hkc]
                  dsimp only
                  rw [alloc_string_reads f (hfal2.imp (fun _ _ hw => hw.2.2))]
                  rw [List.map_map]
                  simp only [Function.comp_def]
                · rcases dictLookup_zip hfvs "description" with ⟨hd1, hd2⟩ |
                    ⟨d, y2, hd1, hd2, hRd⟩
                  · rw [hd1]
                    exact hd2
                  · rw [hd1]
                    exact ⟨y2, hd2, (RWeak_to_final hRd.1 hc1 _ hh2).2⟩

/-- A dict-lookup result is one of the dict's values. -/
theorem dictLookup_mem :
    ∀ {fs : List (String × Nat)} {k : String} {v : Nat},
      dictLookup fs k = some v → v ∈ fs.map Prod.snd := by
  intro fs
  induction fs with
  | nil => intro k v hv; cases hv
  | cons p fs2 ih =>
    intro k v hv
    obtain ⟨pk, pv⟩ := p
    rw [dictLookup] at hv
    by_cases hk : pk = k
    · rw [if_pos hk] at hv
      injection hv with hv2
      subst hv2
      exact List.mem_cons_self _ _
    · rw [if_neg hk] at hv
      exact List.mem_cons_of_mem _ (ih hv)

/-- On a closed heap, the tuple view of an in-range address ignores any
extension. -/
theorem tupleView_append {h : Heap} (hc : heapClosed h) (ext : Heap)
    (f : Nat) (x : Nat) (hx : x < h.length) :
    tupleView f (h ++ ext) x = tupleView f h x := by
  unfold tupleView
  rw [getAppendLeft hx]
  cases hcell : h[x]? with
  | none => rfl
  | some c =>
    have hmem : c ∈ h := List.getElem?_mem hcell
    cases c with
    | null => rfl
    | boolean b => rfl
    | number n => rfl
    | string s => rfl
    | dict gs => rfl
    | array es =>
      dsimp only
      rw [List.map_congr_left (fun e he => readV_append hc ext f e
        (hc _ hmem e (by simp [Cell.refs, he])))]

/-! ## Claim theorems: deserialization -/

/-- C7: deserializing the same document twice (the second pass running on
the heap the first pass left behind) yields two snapshot values that are
equal as Python values: same URL, and identical readouts of every field,
which is what `==` on the frozen dataclass compares. -/
theorem claim_parse_idempotent {fuel fuel2 : Nat} {url : URL} {h : Heap}
    {a : Nat} {h1 h2 : Heap} {u1 u2 : UnifiedDataset}
    (hc : heapClosed h)
    (hj1 : _from_json fuel url h a = Except.ok (h1, u1))
    (hj2 : _from_json fuel2 url h1 a = Except.ok (h2, u2)) :
    u1.url = u2.url ∧ ∀ f, fieldRead f h2 u1 = fieldRead f h2 u2 := by
  obtain ⟨⟨e1, he1⟩, hc1, -, hu1url, hb1name, hb1kans, hb1desc,
    fs, na, ka, hcell, hn, hk, hrdname1, hrdkans1, hrddesc1⟩ :=
    from_json_spec hc hj1
  obtain ⟨⟨e2, he2⟩, hc2, -, hu2url, hb2name, hb2kans, hb2desc,
    fs2, na2, ka2, hcell2, hn2, hk2, hrdname2, hrdkans2, hrddesc2⟩ :=
    from_json_spec hc1 hj2
  have ha : a < h.length := lt_of_getSome hcell
  have hcell1 : h1[a]? = some (Cell.dict fs) := by
    rw [he1, getAppendLeft ha]
    exact hcell
  rw [hcell1] at hcell2
  injection hcell2 with hcc
  injection hcc with hcc2
  subst hcc2
  rw [hn] at hn2
  injection hn2 with hna
  subst hna
  rw [hk] at hk2
  injection hk2 with hka
  subst hka
  have hmemh : Cell.dict fs ∈ h := List.getElem?_mem hcell
  have hna_lt : na < h.length :=
    hc _ hmemh na (by simp only [Cell.refs]; exact dictLookup_mem hn)
  have hka_lt : ka < h.length :=
    hc _ hmemh ka (by simp only [Cell.refs]; exact dictLookup_mem hk)
  refine ⟨by rw [hu1url, hu2url], fun f => ?_⟩
  have hname : readV f h2 u1.name = readV f h2 u2.name := by
    have t1 : readV f h2 u1.name = readV f h1 u1.name := by
      rw [he2]
      exact readV_append hc1 e2 f u1.name hb1name.2
    have t2 : readV f h1 na = readV f h na := by
      rw [he1]
      exact readV_append hc e1 f na hna_lt
    rw [t1, hrdname1 f, hrdname2 f, t2]
  have hkans : u1.key_attribute_names.map (readV f h2) =
      u2.key_attribute_names.map (readV f h2) := by
    have t1 : u1.key_attribute_names.map (readV f h2) =
        u1.key_attribute_names.map (readV f h1) := by
      refine List.map_congr_left (fun x hx => ?_)
      rw [he2]
      exact readV_append hc1 e2 f x (hb1kans x hx).2
    have t2 : tupleView f h1 ka = tupleView f h ka := by
      rw [he1]
      exact tupleView_append hc e1 f ka hka_lt
    have hs1 := hrdkans1 f
    have hs2 := hrdkans2 f
    rw [t2] at hs2
    rw [t1]
    rw [← hs1] at hs2
    injection hs2 with hs3
    exact hs3.symm
  have hdesc : u1.description.map (readV f h2) =
      u2.description.map (readV f h2) := by
    cases hdl : dictLookup fs "description" with
    | none =>
      rw [hdl] at hrddesc1 hrddesc2
      dsimp only at hrddesc1 hrddesc2
      rw [hrddesc1, hrddesc2]
    | some d =>
      rw [hdl] at hrddesc1 hrddesc2
      dsimp only at hrddesc1 hrddesc2
      obtain ⟨x1, hx1, hr1⟩ := hrddesc1
      obtain ⟨x2, hx2, hr2⟩ := hrddesc2
      have hd_lt : d < h.length :=
        hc _ hmemh d (by simp only [Cell.refs]; exact dictLookup_mem hdl)
      rw [hx1, hx2]
      dsimp only [Option.map]
      have t1 : readV f h2 x1 = readV f h1 x1 := by
        rw [he2]
        exact readV_append hc1 e2 f x1 (hb1desc x1 hx1).2
      have t2 : readV f h1 d = readV f h d := by
        rw [he1]
        exact readV_append hc e1 f d hd_lt
      rw [t1, hr1 f, hr2 f, t2]
  unfold fieldRead
  rw [hname, hkans, hdesc]

/-- Counterexample to C3 as stated: a document whose required `"name"`
field has the wrong type (a number, not a string) deserializes
successfully into a snapshot whose name references the number cell —
no error of any kind is raised. -/
theorem claim_malformed_counterexample :
    _from_json 10 ⟨"i", "datasets/1"⟩
      [Cell.number 5, Cell.array [],
       Cell.dict [("name", 0), ("keyAttributeNames", 1)]] 2
      = Except.ok ([Cell.number 5, Cell.array [],
          Cell.dict [("name", 0), ("keyAttributeNames", 1)],
          Cell.number 5, Cell.array [],
          Cell.dict [("name", 3), ("keyAttributeNames", 4)]],
        ⟨⟨"i", "datasets/1"⟩, 3, [], none⟩) := by
  simp [_from_json, deepcopyA, deepcopyL, pyGetItem, pyGet, pyTuple,
    dictLookup]

/-- C3 (amended): deserialization fails — with the Python errors that
stand for the malformed-response kind — when a required field is absent
(`KeyError`) or when `"keyAttributeNames"` holds a non-iterable value
(`TypeError`); a present `"name"` of the wrong type is accepted without
validation. -/
theorem claim_malformed_amended {fuel : Nat} {url : URL} {h : Heap}
    {a : Nat} {fs : List (String × Nat)} {h1 : Heap} {cp : Nat}
    (hc : heapClosed h) (hcell : h[a]? = some (Cell.dict fs))
    (hcp : deepcopyA fuel h a = some (h1, cp)) :
    (dictLookup fs "name" = none →
      _from_json fuel url h a = Except.error (PyErr.keyError "name")) ∧
    (∀ na, dictLookup fs "name" = some na →
      dictLookup fs "keyAttributeNames" = none →
      _from_json fuel url h a =
        Except.error (PyErr.keyError "keyAttributeNames")) ∧
    (∀ na ka, dictLookup fs "name" = some na →
      dictLookup fs "keyAttributeNames" = some ka →
      (h[ka]? = some Cell.null ∨ (∃ b2, h[ka]? = some (Cell.boolean b2)) ∨
        (∃ n2, h[ka]? = some (Cell.number n2))) →
      _from_json fuel url h a = Except.error PyErr.typeError) := by
  obtain ⟨-, -, -, -, hshape⟩ := copyA_spec fuel h a h1 cp hc hcp
  obtain ⟨vs, hcpl, hfvs⟩ := hshape (Cell.dict fs) hcell
  refine ⟨?_, ?_, ?_⟩
  · intro hnone
    rcases dictLookup_zip hfvs "name" with ⟨hn1, hn2⟩ | ⟨x, y, hn1, hn2, _⟩
    · have hpg : pyGetItem h1 cp "name" =
          Except.error (PyErr.keyError "name") := by
        unfold pyGetItem; rw [hcpl]; dsimp only; rw [hn2]
      unfold _from_json
      rw [hcp]
      dsimp only
      rw [hpg]
    · rw [hnone] at hn1; cases hn1
  · intro na hna hknone
    rcases dictLookup_zip hfvs "name" with ⟨hn1, hn2⟩ | ⟨x, y, hn1, hn2, _⟩
    · rw [hna] at hn1; cases hn1
    · have hpg : pyGetItem h1 cp "name" = Except.ok y := by
        unfold pyGetItem; rw [hcpl]; dsimp only; rw [hn2]
      have hpd : pyGet h1 cp "description" = Except.ok
          (dictLookup ((fs.map Prod.fst).zip vs) "description") := by
        unfold pyGet; rw [hcpl]
      rcases dictLookup_zip hfvs "keyAttributeNames" with ⟨hk1, hk2⟩ |
        ⟨x2, y2, hk1, hk2, _⟩
      · have hpk : pyGetItem h1 cp "keyAttributeNames" =
            Except.error (PyErr.keyError "keyAttributeNames") := by
          unfold pyGetItem; rw [hcpl]; dsimp only; rw [hk2]
        unfold _from_json
        rw [hcp]
        dsimp only
        rw [hpg]
        dsimp only
        rw [hpd]
        dsimp only
        rw [hpk]
      · rw [hknone] at hk1; cases hk1
  · intro na ka hna hka hprim
    rcases dictLookup_zip hfvs "name" with ⟨hn1, hn2⟩ | ⟨x, y, hn1, hn2, _⟩
    · rw [hna] at hn1; cases hn1
    · have hpg : pyGetItem h1 cp "name" = Except.ok y := by
        unfold pyGetItem; rw [hcpl]; dsimp only; rw [hn2]
      have hpd : pyGet h1 cp "description" = Except.ok
          (dictLookup ((fs.map Prod.fst).zip vs) "description") := by
        unfold pyGet; rw [hcpl]
      rcases dictLookup_zip hfvs "keyAttributeNames" with ⟨hk1, hk2⟩ |
        ⟨x2, y2, hk1, hk2, hRk⟩
      · rw [hka] at hk1; cases hk1
      · rw [hka] at hk1
        injection hk1 with hk1e
        subst hk1e
        obtain ⟨-, hshk⟩ := hRk
        have hpt : pyTuple h1 y2 = Except.error PyErr.typeError := by
          rcases hprim with hp | ⟨b2, hp⟩ | ⟨n2, hp⟩
          · have := hshk Cell.null hp
            unfold pyTuple
            rw [this]
          · have := hshk (Cell.boolean b2) hp
            unfold pyTuple
            rw [this]
          · have := hshk (Cell.number n2) hp
            unfold pyTuple
            rw [this]
        have hpk : pyGetItem h1 cp "keyAttributeNames" = Except.ok y2 := by
          unfold pyGetItem; rw [hcpl]; dsimp only; rw [hk2]
        unfold _from_json
        rw [hcp]
        dsimp only
        rw [hpg]
        dsimp only
        rw [hpd]
        dsimp only
        rw [hpk]
        dsimp only
        rw [hpt]

/-- Witness for the amended C3: an empty document yields
`KeyError "name"`. -/
theorem claim_malformed_amended_witness :
    _from_json 1 ⟨"i", "datasets/1"⟩ [Cell.dict []] 0
      = Except.error (PyErr.keyError "name") :=
  (@claim_malformed_amended 1 ⟨"i", "datasets/1"⟩ [Cell.dict []] 0 []
    [Cell.dict [], Cell.dict []] 1 (by decide) (by decide)
    (by simp [deepcopyA, deepcopyL])).1 (by decide)

/-- C10: `_from_json` never mutates its input (every pre-existing heap
cell is untouched), the returned snapshot shares no mutable structure
with the input (mutating any pre-existing cell leaves every field
readout of the snapshot unchanged), and a missing `"description"` key
yields `description = none` rather than an error. -/
theorem claim_from_json_frame {fuel : Nat} {url : URL} {h : Heap}
    {a b : Nat} {h' : Heap} {u : UnifiedDataset} {v : Cell}
    (hc : heapClosed h)
    (hj : _from_json fuel url h a = Except.ok (h', u))
    (hb : b < h.length) :
    (∀ i, i < h.length → h'[i]? = h[i]?) ∧
    (∀ f, fieldRead f (h'.set b v) u = fieldRead f h' u) ∧
    (∀ fs, h[a]? = some (Cell.dict fs) →
      dictLookup fs "description" = none → u.description = none) := by
  obtain ⟨⟨e1, he1⟩, hc', hfr, -, hbname, hbkans, hbdesc,
    fs, na, ka, hcell, -, -, -, -, hdescm⟩ := from_json_spec hc hj
  refine ⟨?_, ?_, ?_⟩
  · intro i hi
    rw [he1, getAppendLeft hi]
  · intro f
    have hn : readV f (h'.set b v) u.name = readV f h' u.name :=
      readV_set hfr hb f u.name hbname.1
    have hk : u.key_attribute_names.map (readV f (h'.set b v)) =
        u.key_attribute_names.map (readV f h') :=
      List.map_congr_left (fun x hx => readV_set hfr hb f x (hbkans x hx).1)
    have hd : u.description.map (readV f (h'.set b v)) =
        u.description.map (readV f h') := by
      cases hdo : u.description with
      | none => rfl
      | some x =>
        dsimp only [Option.map]
        rw [readV_set hfr hb f x (hbdesc x hdo).1]
    unfold fieldRead
    rw [hn, hk, hd]
  · intro fs0 hcell0 hnone
    rw [hcell] at hcell0
    injection hcell0 with hcc
    injection hcc with hcc2
    subst hcc2
    rw [hnone] at hdescm
    exact hdescm

/-- Witness for C10: parsing a concrete document, then overwriting a cell
of the original input, leaves the snapshot's readouts unchanged; the
document has no description and the snapshot's description is `none`. -/
theorem claim_from_json_frame_witness :
    ([Cell.string "ds", Cell.string "k", Cell.array [1],
      Cell.dict [("name", 0), ("keyAttributeNames", 2)],
      Cell.string "ds", Cell.string "k", Cell.array [5],
      Cell.dict [("name", 4), ("keyAttributeNames", 6)]][0]? =
     [Cell.string "ds", Cell.string "k", Cell.array [1],
      Cell.dict [("name", 0), ("keyAttributeNames", 2)]][0]?) ∧
    (fieldRead 2
      (([Cell.string "ds", Cell.string "k", Cell.array [1],
         Cell.dict [("name", 0), ("keyAttributeNames", 2)],
         Cell.string "ds", Cell.string "k", Cell.array [5],
         Cell.dict [("name", 4), ("keyAttributeNames", 6)]]).set 0
        (Cell.string "mutated"))
      ⟨⟨"i", "datasets/1"⟩, 4, [5], none⟩ =
     fieldRead 2
      [Cell.string "ds", Cell.string "k", Cell.array [1],
       Cell.dict [("name", 0), ("keyAttributeNames", 2)],
       Cell.string "ds", Cell.string "k", Cell.array [5],
       Cell.dict [("name", 4), ("keyAttributeNames", 6)]]
      ⟨⟨"i", "datasets/1"⟩, 4, [5], none⟩) ∧
    (⟨⟨"i", "datasets/1"⟩, 4, [5], none⟩ : UnifiedDataset).description
      = none := by
  have h := @claim_from_json_frame 10 ⟨"i", "datasets/1"⟩
    [Cell.string "ds", Cell.string "k", Cell.array [1],
     Cell.dict [("name", 0), ("keyAttributeNames", 2)]] 3 0
    [Cell.string "ds", Cell.string "k", Cell.array [1],
     Cell.dict [("name", 0), ("keyAttributeNames", 2)],
     Cell.string "ds", Cell.string "k", Cell.array [5],
     Cell.dict [("name", 4), ("keyAttributeNames", 6)]]
    ⟨⟨"i", "datasets/1"⟩, 4, [5], none⟩ (Cell.string "mutated")
    (by decide)
    (by simp [_from_json, deepcopyA, deepcopyL, pyGetItem, pyGet, pyTuple,
      dictLookup])
    (by decide)
  exact ⟨h.1 0 (by decide), h.2.1 2,
    h.2.2 [("name", 0), ("keyAttributeNames", 2)] (by decide) (by decide)⟩

/-- C8: no operation of the client mutates an existing snapshot or the
objects it was built from: deserialization only allocates — every cell
that existed before is untouched afterwards — and the follower's
successful result is never a mutated earlier snapshot: it is the initial
snapshot itself or a brand-new snapshot parsed from a poll response. -/
theorem claim_no_mutation :
    (∀ (fuel : Nat) (url : URL) (h : Heap) (a : Nat) (h' : Heap)
        (u : UnifiedDataset), heapClosed h →
      _from_json fuel url h a = Except.ok (h', u) →
      ∀ i, i < h.length → h'[i]? = h[i]?) ∧
    (∀ (polls : List HttpResponse) (op : Operation) (n : Nat)
        (o : Operation),
      wait polls op = (n, some (Except.ok o)) →
      o = op ∨ ∃ r ∈ polls, pollOperation op.url r = Except.ok o) := by
  constructor
  · intro fuel url h a h' u hc hj i hi
    obtain ⟨⟨e1, he1⟩, -⟩ := from_json_spec hc hj
    rw [he1, getAppendLeft hi]
  · exact fun polls op n o hw => wait_result_provenance polls op n o hw

/-- Witness for C8: on a concrete parse the pre-existing cells are
unchanged, and a concrete follower run returns the initial snapshot
itself, unmutated. -/
theorem claim_no_mutation_witness :
    ([Cell.string "ds", Cell.string "k", Cell.array [1],
      Cell.dict [("name", 0), ("keyAttributeNames", 2)],
      Cell.string "ds", Cell.string "k", Cell.array [5],
      Cell.dict [("name", 4), ("keyAttributeNames", 6)]][2]? =
     [Cell.string "ds", Cell.string "k", Cell.array [1],
      Cell.dict [("name", 0), ("keyAttributeNames", 2)]][2]?) ∧
    ((⟨⟨"i", "operations/1"⟩, "FAILED", none, none⟩ : Operation) =
        ⟨⟨"i", "operations/1"⟩, "FAILED", none, none⟩ ∨
      ∃ r ∈ ([] : List HttpResponse),
        pollOperation (⟨"i", "operations/1"⟩ : URL) r =
          Except.ok ⟨⟨"i", "operations/1"⟩, "FAILED", none, none⟩) := by
  constructor
  · exact claim_no_mutation.1 10 ⟨"i", "datasets/1"⟩
      [Cell.string "ds", Cell.string "k", Cell.array [1],
       Cell.dict [("name", 0), ("keyAttributeNames", 2)]] 3
      [Cell.string "ds", Cell.string "k", Cell.array [1],
       Cell.dict [("name", 0), ("keyAttributeNames", 2)],
       Cell.string "ds", Cell.string "k", Cell.array [5],
       Cell.dict [("name", 4), ("keyAttributeNames", 6)]]
      ⟨⟨"i", "datasets/1"⟩, 4, [5], none⟩ (by decide)
      (by simp [_from_json, deepcopyA, deepcopyL, pyGetItem, pyGet, pyTuple,
        dictLookup]) 2 (by decide)
  · exact claim_no_mutation.2 [] ⟨⟨"i", "operations/1"⟩, "FAILED", none, none⟩
      0 ⟨⟨"i", "operations/1"⟩, "FAILED", none, none⟩ (by rfl)

/-- Witness for C7: a concrete document parsed twice yields snapshots
with the same URL and identical field readouts. -/
theorem claim_parse_idempotent_witness :
    (⟨⟨"i", "datasets/1"⟩, 4, [5], none⟩ : UnifiedDataset).url =
      (⟨⟨"i", "datasets/1"⟩, 8, [9], none⟩ : UnifiedDataset).url ∧
    fieldRead 2
      [Cell.string "ds", Cell.string "k", Cell.array [1],
       Cell.dict [("name", 0), ("keyAttributeNames", 2)],
       Cell.string "ds", Cell.string "k", Cell.array [5],
       Cell.dict [("name", 4), ("keyAttributeNames", 6)],
       Cell.string "ds", Cell.string "k", Cell.array [9],
       Cell.dict [("name", 8), ("keyAttributeNames", 10)]]
      ⟨⟨"i", "datasets/1"⟩, 4, [5], none⟩ =
    fieldRead 2
      [Cell.string "ds", Cell.string "k", Cell.array [1],
       Cell.dict [("name", 0), ("keyAttributeNames", 2)],
       Cell.string "ds", Cell.string "k", Cell.array [5],
       Cell.dict [("name", 4), ("keyAttributeNames", 6)],
       Cell.string "ds", Cell.string "k", Cell.array [9],
       Cell.dict [("name", 8), ("keyAttributeNames", 10)]]
      ⟨⟨"i", "datasets/1"⟩, 8, [9], none⟩ := by
  have h := @claim_parse_idempotent 10 10 ⟨"i", "datasets/1"⟩
    [Cell.string "ds", Cell.string "k", Cell.array [1],
     Cell.dict [("name", 0), ("keyAttributeNames", 2)]] 3
    [Cell.string "ds", Cell.string "k", Cell.array [1],
     Cell.dict [("name", 0), ("keyAttributeNames", 2)],
     Cell.string "ds", Cell.string "k", Cell.array [5],
     Cell.dict [("name", 4), ("keyAttributeNames", 6)]]
    [Cell.string "ds", Cell.string "k", Cell.array [1],
     Cell.dict [("name", 0), ("keyAttributeNames", 2)],
     Cell.string "ds", Cell.string "k", Cell.array [5],
     Cell.dict [("name", 4), ("keyAttributeNames", 6)],
     Cell.string "ds", Cell.string "k", Cell.array [9],
     Cell.dict [("name", 8), ("keyAttributeNames", 10)]]
    ⟨⟨"i", "datasets/1"⟩, 4, [5], none⟩
    ⟨⟨"i", "datasets/1"⟩, 8, [9], none⟩
    (by decide)
    (by simp [_from_json, deepcopyA, deepcopyL, pyGetItem, pyGet, pyTuple,
      dictLookup])
    (by simp [_from_json, deepcopyA, deepcopyL, pyGetItem, pyGet, pyTuple,
      dictLookup])
  exact ⟨h.1, h.2 2⟩
